import Mathlib

/-!
# useroom: a memory-pressure monitor

A shallow embedding of `src/main.go`.  Go strings are byte sequences, so a
string is a list of bytes.  A function that can fail returns an `Outcome`:
a value, a returned Go `error`, or a runtime panic (an index or slice bound
out of range), which in the program aborts the whole monitor.

The Go standard-library functions the program calls are modelled from their
documented behaviour and their implementation in the Go distribution:
`strings.Index`, `strings.LastIndex`, `strings.Split`, `strings.Join`,
`strings.Fields`, `strconv.ParseUint`, `strconv.ParseInt`, `strconv.Atoi`.
`strings.ToLower`, `strings.TrimSpace`, `sort.Slice`, `os.Getpid` and
`syscall.Getpagesize` are fields of an environment `Env`.
-/

namespace Useroom

/-- A Go string: a sequence of bytes. -/
abbrev Bytes := List UInt8

/-- The bytes of an ASCII string literal. -/
def ascii (s : String) : Bytes := s.data.map (fun c => UInt8.ofNat c.toNat)

/-- The Go errors the program creates or passes on. -/
inductive GoError where
  /-- An `os` error for which `os.IsNotExist` holds. -/
  | notExist
  /-- An `os` error for which `os.IsPermission` holds. -/
  | permission
  /-- Any other error of the operating system. -/
  | osError
  /-- The error "无效的statm格式" of `readStatm`. -/
  | invalidStatm
  /-- The error "无效的stat格式" of `readStat`. -/
  | invalidStat
  /-- The error "无效的stat字段数" of `readStat`. -/
  | invalidStatFields
  /-- The error `strconv.ErrSyntax`. -/
  | numSyntax
  /-- The error `strconv.ErrRange`. -/
  | numRange
  /-- The error "无法获取UID" of `getProcessUID`. -/
  | noUID
  deriving DecidableEq, Repr

/-- The result of running a Go function: a value, a returned error, or a
runtime panic. -/
inductive Outcome (α : Type) where
  | ok (a : α)
  | error (e : GoError)
  | panic
  deriving DecidableEq, Repr

/-- Sequencing of Go statements: an error is returned at once (the `if err != nil`
after each call), a panic unwinds. -/
def Outcome.bind {α β : Type} (x : Outcome α) (f : α → Outcome β) : Outcome β :=
  match x with
  | .ok a => f a
  | .error e => .error e
  | .panic => .panic

/-! ## Slicing and searching -/

/-- The slice expression `s[lo:hi]`: it panics (here `none`) unless
`0 ≤ lo ≤ hi ≤ len(s)`. -/
def goSlice {α : Type} (s : List α) (lo hi : Int) : Option (List α) :=
  if 0 ≤ lo ∧ lo ≤ hi ∧ hi ≤ (s.length : Int) then
    some ((s.drop lo.toNat).take (hi.toNat - lo.toNat))
  else none

/-- The slice expression `s[lo:]`, that is `s[lo:len(s)]`. -/
def goSliceFrom {α : Type} (s : List α) (lo : Int) : Option (List α) :=
  goSlice s lo s.length

/-- The slice expression `s[:hi]`, that is `s[0:hi]`. -/
def goSliceTo {α : Type} (s : List α) (hi : Int) : Option (List α) :=
  goSlice s 0 hi

/-- Position of the first byte equal to `c`, counted from `i`. -/
def indexByteFrom (c : UInt8) : Bytes → Nat → Option Nat
  | [], _ => none
  | b :: rest, i => if b = c then some i else indexByteFrom c rest (i + 1)

/-- Go `strings.Index(s, sep)` for a one-byte `sep`: the index of the first
occurrence, or `-1`. -/
def stringsIndex (s : Bytes) (c : UInt8) : Int :=
  match indexByteFrom c s 0 with
  | some i => (i : Int)
  | none => -1

/-- Position of the last byte equal to `c`, counted from `i`. -/
def lastIndexByteFrom (c : UInt8) : Bytes → Nat → Option Nat
  | [], _ => none
  | b :: rest, i =>
    match lastIndexByteFrom c rest (i + 1) with
    | some j => some j
    | none => if b = c then some i else none

/-- Go `strings.LastIndex(s, sep)` for a one-byte `sep`: the index of the last
occurrence, or `-1`. -/
def stringsLastIndex (s : Bytes) (c : UInt8) : Int :=
  match lastIndexByteFrom c s 0 with
  | some i => (i : Int)
  | none => -1

/-! ## Split and Join -/

/-- Go `strings.Split(s, sep)` for a one-byte `sep`: the substrings between
the occurrences of `sep`; the result always has at least one element. -/
def stringsSplit (sep : UInt8) : Bytes → List Bytes
  | [] => [[]]
  | b :: rest =>
    if b = sep then [] :: stringsSplit sep rest
    else
      match stringsSplit sep rest with
      | [] => [[b]]
      | t :: ts => (b :: t) :: ts

/-- Go `strings.Join(elems, sep)`. -/
def stringsJoin (sep : Bytes) : List Bytes → Bytes
  | [] => []
  | [a] => a
  | a :: b :: rest => a ++ sep ++ stringsJoin sep (b :: rest)

/-! ## UTF-8 decoding and `strings.Fields` -/

/-- The rune `utf8.RuneError` (U+FFFD) that decoding yields for an invalid byte. -/
def runeError : Nat := 0xFFFD

/-- A continuation byte, in the range `0x80 .. 0xBF` (`locb .. hicb`). -/
def isCont (b : UInt8) : Bool := 0x80 ≤ b.toNat && b.toNat ≤ 0xBF

/-- Go `utf8.first` with `utf8.acceptRanges`: for the first byte of a multi-byte
character, the length of the character and the range accepted for its second
byte; `none` for an ASCII byte and for a byte that starts no character. -/
def leadInfo (b : UInt8) : Option (Nat × Nat × Nat) :=
  let n := b.toNat
  if 0xC2 ≤ n ∧ n ≤ 0xDF then some (2, 0x80, 0xBF)
  else if n = 0xE0 then some (3, 0xA0, 0xBF)
  else if 0xE1 ≤ n ∧ n ≤ 0xEC then some (3, 0x80, 0xBF)
  else if n = 0xED then some (3, 0x80, 0x9F)
  else if 0xEE ≤ n ∧ n ≤ 0xEF then some (3, 0x80, 0xBF)
  else if n = 0xF0 then some (4, 0x90, 0xBF)
  else if 0xF1 ≤ n ∧ n ≤ 0xF3 then some (4, 0x80, 0xBF)
  else if n = 0xF4 then some (4, 0x80, 0x8F)
  else none

/-- Go `utf8.DecodeRuneInString`: the first character of `s` and its width in
bytes.  An invalid or truncated encoding yields `(runeError, 1)`, the empty
string `(runeError, 0)`. -/
def decodeRune (s : Bytes) : Nat × Nat :=
  match s with
  | [] => (runeError, 0)
  | s0 :: t =>
    if s0.toNat < 0x80 then (s0.toNat, 1)
    else
      match leadInfo s0 with
      | none => (runeError, 1)
      | some (sz, lo, hi) =>
        if s.length < sz then (runeError, 1)
        else
          match t with
          | [] => (runeError, 1)
          | s1 :: t1 =>
            if s1.toNat < lo ∨ hi < s1.toNat then (runeError, 1)
            else if sz ≤ 2 then ((s0.toNat % 32) * 64 + s1.toNat % 64, 2)
            else
              match t1 with
              | [] => (runeError, 1)
              | s2 :: t2 =>
                if !isCont s2 then (runeError, 1)
                else if sz ≤ 3 then
                  ((s0.toNat % 16) * 4096 + (s1.toNat % 64) * 64 + s2.toNat % 64, 3)
                else
                  match t2 with
                  | [] => (runeError, 1)
                  | s3 :: _ =>
                    if !isCont s3 then (runeError, 1)
                    else
                      ((s0.toNat % 8) * 262144 + (s1.toNat % 64) * 4096
                        + (s2.toNat % 64) * 64 + s3.toNat % 64, 4)

/-- The loop `for _, r := range s` over a string, with `fuel` iterations left:
each iteration yields the decoded character and the bytes it spans. -/
def rangeLoop : Nat → Bytes → List (Nat × Bytes)
  | 0, _ => []
  | _ + 1, [] => []
  | fuel + 1, b :: t =>
    let w := (decodeRune (b :: t)).2
    ((decodeRune (b :: t)).1, (b :: t).take w) :: rangeLoop fuel ((b :: t).drop w)

/-- The characters of a string in order, as `for _, r := range s` visits them.
Every iteration consumes at least one byte, so `len(s)` iterations suffice. -/
def rangeString (s : Bytes) : List (Nat × Bytes) := rangeLoop s.length s

/-- Go `unicode.IsSpace`: the characters with the Unicode White_Space property. -/
def isSpace (r : Nat) : Bool :=
  (0x09 ≤ r && r ≤ 0x0D) || r = 0x20 || r = 0x85 || r = 0xA0 || r = 0x1680
    || (0x2000 ≤ r && r ≤ 0x200A) || r = 0x2028 || r = 0x2029 || r = 0x202F
    || r = 0x205F || r = 0x3000

/-- The span loop of Go `strings.FieldsFunc(s, unicode.IsSpace)`: `cur` holds the
bytes of the field being read (empty: no field is open). -/
def fieldsLoop : List (Nat × Bytes) → Bytes → List Bytes
  | [], cur => if cur.isEmpty then [] else [cur]
  | (r, bs) :: rest, cur =>
    if isSpace r then
      if cur.isEmpty then fieldsLoop rest [] else cur :: fieldsLoop rest []
    else fieldsLoop rest (cur ++ bs)

/-- Go `strings.Fields(s)`: the maximal runs of non-space characters of `s`.
(The ASCII fast path of the Go implementation computes the same list.) -/
def stringsFields (s : Bytes) : List Bytes := fieldsLoop (rangeString s) []

/-! ## strconv -/

/-- The loop of Go `strconv.ParseUint(s, 10, bitSize)` over the bytes of `s`,
with the value `n` accumulated so far: the value and the error, if any.  A byte
that is no decimal digit gives `(0, ErrSyntax)`; an overflow gives the largest
value of the bit size and `ErrRange`. -/
def parseUintLoop (bitSize : Nat) : Bytes → Nat → Nat × Option GoError
  | [], n => (n, none)
  | c :: rest, n =>
    if 48 ≤ c.toNat ∧ c.toNat ≤ 57 then
      let d := c.toNat - 48
      if n ≥ (2 ^ 64 - 1) / 10 + 1 then (2 ^ bitSize - 1, some .numRange)
      else
        let n1 := n * 10 + d
        if n1 ≥ 2 ^ 64 ∨ n1 > 2 ^ bitSize - 1 then (2 ^ bitSize - 1, some .numRange)
        else parseUintLoop bitSize rest n1
    else (0, some .numSyntax)

/-- Go `strconv.ParseUint(s, 10, bitSize)` for `bitSize` 32 or 64. -/
def parseUint (s : Bytes) (bitSize : Nat) : Nat × Option GoError :=
  if s = [] then (0, some .numSyntax) else parseUintLoop bitSize s 0

/-- Go `strconv.ParseInt(s, 10, bitSize)` for `bitSize` 32 or 64. -/
def parseInt (s : Bytes) (bitSize : Nat) : Int × Option GoError :=
  match s with
  | [] => (0, some .numSyntax)
  | c :: rest =>
    let neg : Bool := c = 45
    let digits : Bytes := if c = 43 ∨ c = 45 then rest else s
    match parseUint digits bitSize with
    | (_, some .numSyntax) => (0, some .numSyntax)
    | (un, _) =>
      let cutoff : Nat := 2 ^ (bitSize - 1)
      if !neg && un ≥ cutoff then ((cutoff : Int) - 1, some .numRange)
      else if neg && un > cutoff then (-(cutoff : Int), some .numRange)
      else (if neg then -(un : Int) else (un : Int), none)

/-- Go `strconv.Atoi(s)` on a 64-bit platform: `ParseInt(s, 10, 0)` converted to
`int` (the fast path for short strings returns the same value and error). -/
def atoi (s : Bytes) : Int × Option GoError := parseInt s 64

/-! ## The data model of `main.go` -/

/-- A value of Go type `float64`: a finite value, an infinity, or not-a-number. -/
inductive Float64 where
  | finite (q : ℚ)
  | posInf
  | negInf
  | nan
  deriving DecidableEq

/-- The configuration `Config`. -/
structure Config where
  memTermPercent : Float64
  memKillPercent : Float64
  swapTermPercent : Float64
  swapKillPercent : Float64
  interval : Int
  dryRun : Bool
  debug : Bool
  sortByRSS : Bool
  ignoreSwap : Bool
  protectProcesses : List Bytes

/-- The memory sample `MemInfo` (fields of type `uint64`). -/
structure MemInfo where
  memTotal : Nat
  memAvailable : Nat
  swapTotal : Nat
  swapFree : Nat
  deriving DecidableEq, Repr

/-- The process snapshot `Process`; `rss` has type `uint64`. -/
structure Process where
  pid : Int
  oomScore : Int
  rss : Nat
  comm : Bytes
  cmdline : Bytes
  uid : Int
  isZombie : Bool
  deriving DecidableEq, Repr

/-- The record `statm` (fields of type `uint64`). -/
structure statm where
  size : Nat
  rss : Nat
  share : Nat
  text : Nat
  lib : Nat
  data : Nat
  dt : Nat
  deriving DecidableEq, Repr

/-- The record `stat`. -/
structure stat where
  pid : Int
  comm : Bytes
  state : UInt8
  ppid : Int
  pgrp : Int
  session : Int
  tty : Int
  tpgid : Int
  flags : Nat
  minflt : Nat
  cminflt : Nat
  majflt : Nat
  cmajflt : Nat
  utime : Nat
  stime : Nat
  cutime : Int
  cstime : Int
  priority : Int
  nice : Int
  numThreads : Int
  itrealvalue : Int
  starttime : Nat
  vsize : Nat
  rss : Int
  uid : Int
  gid : Int
  deriving DecidableEq, Repr

/-- The signals the monitor sends. -/
inductive Signal where
  | SIGTERM
  | SIGKILL
  deriving DecidableEq, Repr

/-- What the program takes from the Go library and the operating system without
the claims depending on how it is computed. -/
structure Env where
  /-- Go `strings.ToLower`. -/
  toLower : Bytes → Bytes
  /-- Go `strings.TrimSpace`. -/
  trimSpace : Bytes → Bytes
  /-- Go `sort.Slice(x, less)`, as a function from the slice before to the slice
  after; `less` compares the elements at two positions. -/
  sortSlice : (Process → Process → Bool) → List Process → List Process
  /-- Go `os.Getpid()`. -/
  getpid : Int
  /-- Go `syscall.Getpagesize()`. -/
  getpagesize : Int
  /-- The function `getProcessUID`: owner of the directory `/proc/<pid>`. -/
  getProcessUID : Int → Except GoError Int

/-- The conversion `uint64(x)` of an `int`. -/
def toUint64 (x : Int) : Nat := (x % 2 ^ 64).toNat

/-- The index expression `l[i]`: it panics when `i` is out of range. -/
def goIndex {α : Type} (l : List α) (i : Nat) : Outcome α :=
  match l[i]? with
  | some a => .ok a
  | none => .panic

/-- A slice expression as an `Outcome`. -/
def ofSlice {α : Type} (r : Option (List α)) : Outcome (List α) :=
  match r with
  | some l => .ok l
  | none => .panic

/-! ## The readers -/

/-- The function `readIntFile`; `file` is the result of `os.ReadFile(path)`. -/
def readIntFile (env : Env) (file : Except GoError Bytes) : Outcome Int :=
  match file with
  | .error e => .error e
  | .ok data =>
    match atoi (env.trimSpace data) with
    | (n, none) => .ok n
    | (_, some e) => .error e

/-- The function `readStatm`; `file` is the result of `os.ReadFile(path)`. -/
def readStatm (file : Except GoError Bytes) : Outcome statm :=
  match file with
  | .error e => .error e
  | .ok data =>
    let parts := stringsFields data
    if parts.length < 7 then .error .invalidStatm
    else
      (goIndex parts 0).bind fun p0 =>
      (goIndex parts 1).bind fun p1 =>
      (goIndex parts 2).bind fun p2 =>
      (goIndex parts 3).bind fun p3 =>
      (goIndex parts 4).bind fun p4 =>
      (goIndex parts 5).bind fun p5 =>
      (goIndex parts 6).bind fun p6 =>
      .ok {
        size := (parseUint p0 64).1
        rss := (parseUint p1 64).1
        share := (parseUint p2 64).1
        text := (parseUint p3 64).1
        lib := (parseUint p4 64).1
        data := (parseUint p5 64).1
        dt := (parseUint p6 64).1 }

/-- The function `getPageSize`. -/
def getPageSize (env : Env) : Int := env.getpagesize

/-- The function `readComm`; `file` is the result of `os.ReadFile(path)`. -/
def readComm (env : Env) (file : Except GoError Bytes) : Outcome Bytes :=
  match file with
  | .error e => .error e
  | .ok data => .ok (env.trimSpace data)

/-- The function `readCmdline`; `file` is the result of `os.ReadFile(path)`. -/
def readCmdline (file : Except GoError Bytes) : Outcome Bytes :=
  match file with
  | .error e => .error e
  | .ok data =>
    let parts := stringsSplit 0 data
    (ofSlice (goSliceTo parts ((parts.length : Int) - 1))).bind fun front =>
    .ok (stringsJoin [32] front)

/-- The function `readStat`; `file` is the result of `os.ReadFile(path)`. -/
def readStat (env : Env) (file : Except GoError Bytes) : Outcome stat :=
  match file with
  | .error e => .error e
  | .ok str =>
    let firstParen := stringsIndex str 40
    let lastParen := stringsLastIndex str 41
    if firstParen = -1 ∨ lastParen = -1 then .error .invalidStat
    else
      (ofSlice (goSliceTo str firstParen)).bind fun pidStr =>
      let pid := (atoi (env.trimSpace pidStr)).1
      (ofSlice (goSlice str (firstParen + 1) lastParen)).bind fun comm =>
      (ofSlice (goSliceFrom str (lastParen + 2))).bind fun tail =>
      let fields := stringsFields tail
      if fields.length < 24 then .error .invalidStatFields
      else
        (goIndex fields 0).bind fun f0 =>
        (goIndex f0 0).bind fun state =>
        (goIndex fields 1).bind fun f1 =>
        (goIndex fields 2).bind fun f2 =>
        (goIndex fields 3).bind fun f3 =>
        (goIndex fields 4).bind fun f4 =>
        (goIndex fields 5).bind fun f5 =>
        (goIndex fields 6).bind fun f6 =>
        (goIndex fields 7).bind fun f7 =>
        (goIndex fields 8).bind fun f8 =>
        (goIndex fields 9).bind fun f9 =>
        (goIndex fields 10).bind fun f10 =>
        (goIndex fields 11).bind fun f11 =>
        (goIndex fields 12).bind fun f12 =>
        (goIndex fields 13).bind fun f13 =>
        (goIndex fields 14).bind fun f14 =>
        (goIndex fields 15).bind fun f15 =>
        (goIndex fields 16).bind fun f16 =>
        (goIndex fields 17).bind fun f17 =>
        (goIndex fields 18).bind fun f18 =>
        (goIndex fields 19).bind fun f19 =>
        (goIndex fields 20).bind fun f20 =>
        (goIndex fields 21).bind fun f21 =>
        .ok {
          pid := pid
          comm := comm
          state := state
          ppid := (atoi f1).1
          pgrp := (atoi f2).1
          session := (atoi f3).1
          tty := (atoi f4).1
          tpgid := (atoi f5).1
          flags := (parseUint f6 32).1 % 2 ^ 32
          minflt := (parseUint f7 64).1
          cminflt := (parseUint f8 64).1
          majflt := (parseUint f9 64).1
          cmajflt := (parseUint f10 64).1
          utime := (parseUint f11 64).1
          stime := (parseUint f12 64).1
          cutime := (parseInt f13 64).1
          cstime := (parseInt f14 64).1
          priority := (parseInt f15 32).1
          nice := (parseInt f16 32).1
          numThreads := (parseInt f17 32).1
          itrealvalue := (parseInt f18 64).1
          starttime := (parseUint f19 64).1
          vsize := (parseUint f20 64).1
          rss := (parseInt f21 64).1
          uid := match env.getProcessUID pid with
            | .ok uid => uid
            | .error _ => 0
          gid := 0 }

/-- The contents of the five files of `/proc/<pid>` that `getProcessInfo` reads,
each the result of its `os.ReadFile`. -/
structure ProcFiles where
  oom_score : Except GoError Bytes
  statm : Except GoError Bytes
  comm : Except GoError Bytes
  cmdline : Except GoError Bytes
  stat : Except GoError Bytes

/-- The function `getProcessInfo`.  On an error Go returns the partly filled
`Process` with the error; every caller drops it, so only the error is kept. -/
def getProcessInfo (env : Env) (files : ProcFiles) (pid : Int) : Outcome Process :=
  (readIntFile env files.oom_score).bind fun oomScore =>
  (readStatm files.statm).bind fun statm =>
  let rss := (statm.rss * toUint64 (getPageSize env)) % 2 ^ 64
  (readComm env files.comm).bind fun comm =>
  (readCmdline files.cmdline).bind fun cmdline =>
  (readStat env files.stat).bind fun stat =>
  .ok {
    pid := pid
    oomScore := oomScore
    rss := rss
    comm := comm
    cmdline := cmdline
    uid := stat.uid
    isZombie := stat.state = 90 }

/-! ## Victim selection -/

/-- The function `filterProcesses` (its parameter `protected` is `protectedNames`
here).  The map `protectedMap` holds the lower-cased
protected names; a lookup of an absent key yields `false`.  The log line for a
protected process is not modelled. -/
def filterProcesses (env : Env) (processes : List Process)
    (protectedNames : List Bytes) : List Process :=
  let protectedMap : List Bytes := protectedNames.map env.toLower
  processes.filter fun p =>
    !p.isZombie && !(p.pid = 1 || p.pid = env.getpid)
      && !(protectedMap.contains (env.toLower p.comm))

/-- The function `selectVictim`: it panics on an empty slice (`processes[0]`). -/
def selectVictim (env : Env) (processes : List Process) (sortByRSS : Bool) :
    Outcome Process :=
  let sorted :=
    if sortByRSS then env.sortSlice (fun a b => decide (a.rss > b.rss)) processes
    else env.sortSlice (fun a b => decide (a.oomScore > b.oomScore)) processes
  goIndex sorted 0

/-- What one iteration of the monitor did: the victim it chose and the signal
for it, if any, and the calls of `killProcess` it made. -/
structure TickResult where
  victim : Option Process
  signal : Option Signal
  kills : List (Int × Signal)
  deriving DecidableEq, Repr

/-- One iteration of the loop of `main` from the test `needTerm || needKill` on,
given the two flags computed from the memory sample and `processes`, the result of
`getProcesses()`.  Log output and the sleep are not modelled. -/
def tick (env : Env) (cfg : Config) (needTerm needKill : Bool)
    (processes : Except GoError (List Process)) : Outcome TickResult :=
  if needTerm || needKill then
    match processes with
    | .error _ => .ok { victim := none, signal := none, kills := [] }
    | .ok processes =>
      let filtered := filterProcesses env processes cfg.protectProcesses
      if filtered.length = 0 then .ok { victim := none, signal := none, kills := [] }
      else
        (selectVictim env filtered cfg.sortByRSS).bind fun victim =>
        let signal := if needKill then Signal.SIGKILL else Signal.SIGTERM
        .ok {
          victim := some victim
          signal := some signal
          kills := if !cfg.dryRun then [(victim.pid, signal)] else [] }
  else .ok { victim := none, signal := none, kills := [] }

/-! ## The contract of `sort.Slice` and a concrete environment -/

/-- What Go documents for `sort.Slice(x, less)` when `less` is a transitive
ordering (irreflexive, transitive, and with a transitive "not less"): the slice
afterwards is a rearrangement of the slice before, and no element is less than
an element that stands before it.  Which of several equal elements comes first
is not fixed ("the sort is not guaranteed to be stable"). -/
def SortSliceSpec (sortSlice : (Process → Process → Bool) → List Process → List Process) :
    Prop :=
  ∀ less : Process → Process → Bool,
    (∀ a, less a a = false) →
    (∀ a b c, less a b = true → less b c = true → less a c = true) →
    (∀ a b c, less a b = false → less b c = false → less a c = false) →
    ∀ l, (sortSlice less l).Perm l ∧ (sortSlice less l).Pairwise (fun a b => less b a = false)

/-- Lower-casing of the ASCII letters, which is `strings.ToLower` on ASCII strings. -/
def asciiToLower (s : Bytes) : Bytes :=
  s.map fun b => if 65 ≤ b.toNat ∧ b.toNat ≤ 90 then UInt8.ofNat (b.toNat + 32) else b

/-- An ASCII white-space byte (`\t`, `\n`, `\v`, `\f`, `\r`, space). -/
def isAsciiSpace (b : UInt8) : Bool := (9 ≤ b.toNat && b.toNat ≤ 13) || b.toNat = 32

/-- Removal of leading and trailing ASCII white space, which is `strings.TrimSpace`
on ASCII strings. -/
def asciiTrimSpace (s : Bytes) : Bytes :=
  ((s.dropWhile isAsciiSpace).reverse.dropWhile isAsciiSpace).reverse

/-- A concrete environment for evaluating the program on ASCII inputs: an
insertion sort for `sort.Slice`, process id 4242 for the monitor, pages of 4096
bytes, and every `/proc/<pid>` owned by user 1000. -/
def asciiEnv : Env where
  toLower := asciiToLower
  trimSpace := asciiTrimSpace
  sortSlice := fun less l => l.insertionSort (fun a b => less b a = false)
  getpid := 4242
  getpagesize := 4096
  getProcessUID := fun _ => .ok 1000

/-- The process A of the ranking example. -/
def sampleA : Process :=
  { pid := 30, oomScore := 500, rss := 100, comm := ascii "a", cmdline := [],
    uid := 1000, isZombie := false }

/-- The process B of the ranking example. -/
def sampleB : Process :=
  { pid := 31, oomScore := 900, rss := 50, comm := ascii "b", cmdline := [],
    uid := 1000, isZombie := false }

/-- Sample processes none of which may be chosen: a zombie, pid 1, the monitor
of `asciiEnv`, and a process whose name is protected in another letter case. -/
def sampleIneligible : List Process :=
  [ { pid := 7, oomScore := 990, rss := 900, comm := ascii "defunct", cmdline := [],
      uid := 0, isZombie := true },
    { pid := 1, oomScore := 980, rss := 800, comm := ascii "init", cmdline := [],
      uid := 0, isZombie := false },
    { pid := 4242, oomScore := 970, rss := 700, comm := ascii "useroom", cmdline := [],
      uid := 0, isZombie := false },
    { pid := 20, oomScore := 960, rss := 600, comm := ascii "sshd", cmdline := [],
      uid := 0, isZombie := false } ]

/-- The ineligible sample processes followed by A and B. -/
def sampleProcesses : List Process := sampleIneligible ++ [sampleA, sampleB]

/-- A sample configuration that protects `SSHD`. -/
def sampleConfig : Config where
  memTermPercent := .finite 10
  memKillPercent := .finite 5
  swapTermPercent := .finite 10
  swapKillPercent := .finite 5
  interval := 1
  dryRun := false
  debug := false
  sortByRSS := false
  ignoreSwap := false
  protectProcesses := [ascii "SSHD"]

/-- A string without a white-space character (as `strings.Fields` reads it). -/
def spaceFree (f : Bytes) : Bool := (rangeString f).all fun r => !isSpace r.1

/-- The 24 fields of the sample status record. -/
def sampleStatFields : List Bytes :=
  [ascii "S", ascii "1", ascii "123", ascii "123", ascii "0", ascii "-1", ascii "4194304",
   ascii "100", ascii "0", ascii "0", ascii "0", ascii "5", ascii "3", ascii "0", ascii "0",
   ascii "20", ascii "0", ascii "1", ascii "0", ascii "1000", ascii "10240000", ascii "300",
   ascii "18446744073709551615", ascii "1"]

/-- A status record with 23 fields after the `)`, the first of them preceded by a
no-break space (U+00A0, the bytes `C2 A0`) that follows the `)` directly. -/
def nbspRecord : Bytes :=
  ascii "1 (a)" ++ [0xC2, 0xA0]
    ++ ascii " 1 2 3 4 5 6 7 8 9 10 11 12 13 14 15 16 17 18 19 20 21 22 23"

/-- A decimal digit `0` to `9`. -/
def isDigit (c : UInt8) : Bool := 48 ≤ c.toNat && c.toNat ≤ 57

/-- The number a string of decimal digits denotes, read after the value `n`. -/
def decimalFrom (n : Nat) (s : Bytes) : Nat :=
  s.foldl (fun n c => n * 10 + (c.toNat - 48)) n

/-- The number a string of decimal digits denotes. -/
def decimalValue (s : Bytes) : Nat := decimalFrom 0 s

/-- The seven fields of a `statm` record in the order of the file. -/
def statmFields (s : statm) : List Nat :=
  [s.size, s.rss, s.share, s.text, s.lib, s.data, s.dt]

/-- Sample files of a process: 300 resident pages, state `S`. -/
def sampleFiles : ProcFiles where
  oom_score := .ok (ascii "500\n")
  statm := .ok (ascii "2500 300 120 10 0 500 0\n")
  comm := .ok (ascii "a\n")
  cmdline := .ok [97, 0]
  stat := .ok (ascii
    "30 (a) S 1 30 30 0 -1 4194304 100 0 0 0 5 3 0 0 20 0 1 0 1000 10240000 300 18446744073709551615 1 1 0 0 0 0 0\n")

/-! ## The memory sample and the process list -/

/-- What the loop `for scanner.Scan()` over a file yields: the lines, in order,
and the error `scanner.Err()` reports after the loop, if any (a read error, or a
line longer than the buffer of the scanner). -/
structure ScanResult where
  lines : List Bytes
  err : Option GoError

/-- The body of the loop of `getMemInfo` for one line: a line with fewer than two
fields is passed over; otherwise the first field selects what the value of
`ParseUint` for the second field, errors ignored, is stored in. -/
def memInfoLine (memInfo : MemInfo) (line : Bytes) : MemInfo :=
  match stringsFields line with
  | key :: value :: _ =>
    if key = ascii "MemTotal:" then { memInfo with memTotal := (parseUint value 64).1 }
    else if key = ascii "MemAvailable:" then
      { memInfo with memAvailable := (parseUint value 64).1 }
    else if key = ascii "SwapTotal:" then { memInfo with swapTotal := (parseUint value 64).1 }
    else if key = ascii "SwapFree:" then { memInfo with swapFree := (parseUint value 64).1 }
    else memInfo
  | _ => memInfo

/-- The function `getMemInfo`; `file` is the result of `os.Open("/proc/meminfo")`
followed by the scan of the file. -/
def getMemInfo (file : Except GoError ScanResult) : Outcome MemInfo :=
  match file with
  | .error e => .error e
  | .ok scan =>
    let memInfo := scan.lines.foldl memInfoLine
      { memTotal := 0, memAvailable := 0, swapTotal := 0, swapFree := 0 }
    match scan.err with
    | some e => .error e
    | none => .ok memInfo

/-- The loop of `getProcesses` over the names of the directories found, with the
slice `processes` built so far; `info pid` is the result of `getProcessInfo(pid)`.
A name that `Atoi` rejects and a pid whose read returns an error are passed over. -/
def getProcessesLoop (info : Int → Outcome Process) :
    List Bytes → List Process → Outcome (List Process)
  | [], processes => .ok processes
  | pidStr :: rest, processes =>
    match atoi pidStr with
    | (_, some _) => getProcessesLoop info rest processes
    | (pid, none) =>
      match info pid with
      | .ok proc => getProcessesLoop info rest (processes ++ [proc])
      | .error _ => getProcessesLoop info rest processes
      | .panic => .panic

/-- The function `getProcesses`; `glob` is the result of
`filepath.Glob("/proc/[0-9]*")` with `filepath.Base` applied to each path, and
`files pid` are the files of `/proc/<pid>`. -/
def getProcesses (env : Env) (glob : Except GoError (List Bytes)) (files : Int → ProcFiles) :
    Outcome (List Process) :=
  match glob with
  | .error e => .error e
  | .ok pids => getProcessesLoop (fun pid => getProcessInfo env (files pid) pid) pids []

/-- The loop of `filterProcesses` statement by statement, with the slice `filtered`
built so far: each `continue` passes a process over, the `append` keeps it. -/
def filterProcessesLoop (env : Env) (protectedMap : List Bytes) :
    List Process → List Process → List Process
  | [], filtered => filtered
  | p :: rest, filtered =>
    if p.isZombie then filterProcessesLoop env protectedMap rest filtered
    else if p.pid = 1 ∨ p.pid = env.getpid then filterProcessesLoop env protectedMap rest filtered
    else if protectedMap.contains (env.toLower p.comm) then
      filterProcessesLoop env protectedMap rest filtered
    else filterProcessesLoop env protectedMap rest (filtered ++ [p])

/-- A process that may be chosen: no zombie, neither pid 1 nor the monitor, and
with a name that matches no protected name when both are lower-cased. -/
def Eligible (env : Env) (protectedNames : List Bytes) (p : Process) : Prop :=
  p.isZombie = false ∧ p.pid ≠ 1 ∧ p.pid ≠ env.getpid ∧
    ∀ n ∈ protectedNames, env.toLower p.comm ≠ env.toLower n

instance (env : Env) (protectedNames : List Bytes) (p : Process) :
    Decidable (Eligible env protectedNames p) := by
  unfold Eligible
  infer_instance

/-- The value a line of the memory listing gives for `key`: the value of
`ParseUint` for its second field when its first field is `key`. -/
def lineValue (key : Bytes) (line : Bytes) : Option Nat :=
  match stringsFields line with
  | k :: value :: _ => if k = key then some (parseUint value 64).1 else none
  | _ => none

/-- The value the last line for `key` gives, or 0 when no line gives one. -/
def lastValue (key : Bytes) (lines : List Bytes) : Nat :=
  ((lines.filterMap (lineValue key)).getLast?).getD 0

/-- A sample memory listing without a line for `MemAvailable`. -/
def sampleMeminfo : List Bytes :=
  [ascii "MemTotal:       16000000 kB", ascii "MemFree:         1000000 kB",
   ascii "Buffers:", ascii "", ascii "SwapTotal:             0 kB",
   ascii "SwapFree:              0 kB", ascii "MemTotal:        8000000 kB"]

/-- The snapshot that the directory `name` contributes to the process list: the
snapshot read for its pid, when `Atoi` accepts the name and the read succeeds. -/
def snapshotOf (info : Int → Outcome Process) (name : Bytes) : Option Process :=
  match atoi name with
  | (pid, none) =>
    match info pid with
    | .ok proc => some proc
    | _ => none
  | _ => none

/-- Sample files of `/proc`: pid 30 has `sampleFiles`, the files of every other pid
are gone by the time they are read. -/
def sampleProc (pid : Int) : ProcFiles :=
  if pid = 30 then sampleFiles
  else { oom_score := .error .notExist, statm := .error .notExist, comm := .error .notExist,
         cmdline := .error .notExist, stat := .error .notExist }

/-- A status record with 24 fields after the `)`, the first of them, `Z`, right
after the `)`. -/
def zombieRecord24 : Bytes :=
  ascii "7 (defunct)Z 1 7 7 0 -1 4194304 0 0 0 0 0 0 0 0 20 0 1 0 1000 0 0 18446744073709551615 0"

/-- A status record with 25 fields after the `)`, the first of them, `Z`, right
after the `)`. -/
def zombieRecord25 : Bytes :=
  ascii "7 (defunct)Z 1 7 7 0 -1 4194304 0 0 0 0 0 0 0 0 20 0 1 0 1000 0 0 18446744073709551615 0 0"

/-! ## float64 arithmetic -/

/-- Rounding of a rational number to the nearest integer, a tie to the even one. -/
def roundNearestEven (x : ℚ) : ℤ :=
  if x - ⌊x⌋ < 1 / 2 then ⌊x⌋
  else if 1 / 2 < x - ⌊x⌋ then ⌊x⌋ + 1
  else if ⌊x⌋ % 2 = 0 then ⌊x⌋ else ⌊x⌋ + 1

/-- The distance between neighbouring `float64` values at a positive `x`: 52 binary
places below the leading bit of `x`, and the same for all subnormal numbers (those
below 2^-1022). -/
def float64Ulp (x : ℚ) : ℚ := (2 : ℚ) ^ (max (Int.log 2 x) (-1022) - 52)

/-- The `float64` value nearest to a positive `x`, a tie to the even mantissa. -/
def roundPos (x : ℚ) : ℚ := roundNearestEven (x / float64Ulp x) * float64Ulp x

/-- IEEE 754 rounding of a rational number to `float64` (round to nearest, ties to
even): a result of 2^1024 or more in magnitude is an infinity.  The two zeros of
`float64` are one value here. -/
def roundFloat64 (x : ℚ) : Float64 :=
  if x = 0 then .finite 0
  else if 0 < x then
    if (2 : ℚ) ^ (1024 : ℕ) ≤ roundPos x then .posInf else .finite (roundPos x)
  else
    if (2 : ℚ) ^ (1024 : ℕ) ≤ roundPos (-x) then .negInf else .finite (-roundPos (-x))

/-- The conversion `float64(n)` of a `uint64`. -/
def Float64.ofUint64 (n : Nat) : Float64 := roundFloat64 n

/-- The quotient `x / y` of two `float64`.  A zero divisor is taken as `+0`, which
is the zero that the conversion of a `uint64` yields. -/
def Float64.div : Float64 → Float64 → Float64
  | .nan, _ => .nan
  | _, .nan => .nan
  | .finite a, .finite b =>
    if b = 0 then (if a = 0 then .nan else if 0 < a then .posInf else .negInf)
    else roundFloat64 (a / b)
  | .finite _, .posInf => .finite 0
  | .finite _, .negInf => .finite 0
  | .posInf, .finite b => if 0 ≤ b then .posInf else .negInf
  | .negInf, .finite b => if 0 ≤ b then .negInf else .posInf
  | .posInf, .posInf => .nan
  | .posInf, .negInf => .nan
  | .negInf, .posInf => .nan
  | .negInf, .negInf => .nan

/-- The product `x * y` of two `float64`. -/
def Float64.mul : Float64 → Float64 → Float64
  | .nan, _ => .nan
  | _, .nan => .nan
  | .finite a, .finite b => roundFloat64 (a * b)
  | .finite a, .posInf => if a = 0 then .nan else if 0 < a then .posInf else .negInf
  | .finite a, .negInf => if a = 0 then .nan else if 0 < a then .negInf else .posInf
  | .posInf, .finite b => if b = 0 then .nan else if 0 < b then .posInf else .negInf
  | .negInf, .finite b => if b = 0 then .nan else if 0 < b then .negInf else .posInf
  | .posInf, .posInf => .posInf
  | .posInf, .negInf => .negInf
  | .negInf, .posInf => .negInf
  | .negInf, .negInf => .posInf

/-- The comparison `x <= y` of two `float64`: false when either is not a number. -/
def Float64.le : Float64 → Float64 → Bool
  | .nan, _ => false
  | _, .nan => false
  | .finite a, .finite b => decide (a ≤ b)
  | .negInf, _ => true
  | _, .posInf => true
  | .posInf, _ => false
  | .finite _, .negInf => false

/-- The value `memAvailPercent` of `main`:
`float64(memAvailable) / float64(memTotal) * 100`. -/
def memAvailPercent (memInfo : MemInfo) : Float64 :=
  ((Float64.ofUint64 memInfo.memAvailable).div (Float64.ofUint64 memInfo.memTotal)).mul
    (.finite 100)

/-- The value `swapFreePercent` of `main`. -/
def swapFreePercent (memInfo : MemInfo) : Float64 :=
  if memInfo.swapTotal > 0 then
    ((Float64.ofUint64 memInfo.swapFree).div (Float64.ofUint64 memInfo.swapTotal)).mul
      (.finite 100)
  else .finite 100

/-- The flag `needTerm` of `main`. -/
def needTerm (cfg : Config) (memInfo : MemInfo) : Bool :=
  (memAvailPercent memInfo).le cfg.memTermPercent ||
    (!cfg.ignoreSwap && decide (memInfo.swapTotal > 0) &&
      (swapFreePercent memInfo).le cfg.swapTermPercent)

/-- The flag `needKill` of `main`. -/
def needKill (cfg : Config) (memInfo : MemInfo) : Bool :=
  (memAvailPercent memInfo).le cfg.memKillPercent ||
    (!cfg.ignoreSwap && decide (memInfo.swapTotal > 0) &&
      (swapFreePercent memInfo).le cfg.swapKillPercent)

/-- One iteration of the loop of `main` for the memory sample `memInfo` that
`getMemInfo` returned and the result `processes` of `getProcesses()`. -/
def mainTick (env : Env) (cfg : Config) (memInfo : MemInfo)
    (processes : Except GoError (List Process)) : Outcome TickResult :=
  tick env cfg (needTerm cfg memInfo) (needKill cfg memInfo) processes

/-- A sample configuration whose kill threshold for memory lies above its
terminate threshold. -/
def killFirstConfig : Config :=
  { sampleConfig with memTermPercent := .finite 5, memKillPercent := .finite 10 }

/-- A memory sample with one sixteenth of the memory available and no swap. -/
def sampleMemInfo : MemInfo :=
  { memTotal := 16, memAvailable := 1, swapTotal := 0, swapFree := 0 }

/-- A memory sample that reports more available memory than total memory. -/
def overMemInfo : MemInfo :=
  { memTotal := 100, memAvailable := 200, swapTotal := 0, swapFree := 0 }

example : stringsSplit 0 (ascii "foo") = [ascii "foo"] := by decide
example : stringsIndex (ascii "1 (a)") 40 = 2 := by decide
example : stringsLastIndex (ascii "1 (a)") 41 = 4 := by decide
example : goSliceFrom (ascii "1 (a)") 6 = none := by decide
example : goSliceFrom (ascii "1 (a)") 5 = some [] := by decide
example : stringsFields (ascii " ab  c\td ") = [ascii "ab", ascii "c", ascii "d"] := by decide
example : stringsFields [0xC2, 0xA0, 0x41] = [[0x41]] := by decide
example : stringsFields [0xA0, 0x41] = [[0xA0, 0x41]] := by decide
example : stringsFields [0xE2, 0x80, 0x88, 0x41, 0xE2, 0x80] = [[0x41, 0xE2, 0x80]] := by decide
example : parseUint (ascii "18446744073709551615") 64 = (18446744073709551615, none) := by decide
example : parseUint (ascii "18446744073709551616") 64 = (18446744073709551615, some .numRange) := by decide
example : parseUint (ascii "12a") 64 = (0, some .numSyntax) := by decide
example : parseUint (ascii "4294967296") 32 = (4294967295, some .numRange) := by decide
example : atoi (ascii "-12") = (-12, none) := by decide
example : atoi (ascii "9223372036854775808") = (9223372036854775807, some .numRange) := by decide
example : atoi (ascii "-9223372036854775808") = (-9223372036854775808, none) := by decide
example : atoi (ascii "+") = (0, some .numSyntax) := by decide

/-! ## Lemmas -/

/-- The insertion sort of `asciiEnv` meets the contract of `sort.Slice`. -/
theorem asciiEnv_sortSlice_spec : SortSliceSpec asciiEnv.sortSlice := by
  intro less hirr htr hneg l
  have htot : IsTotal Process (fun a b => less b a = false) := by
    refine ⟨fun a b => ?_⟩
    by_cases h : less b a = true
    · right
      by_contra h2
      have h3 : less a b = true := by simpa using h2
      have := htr a b a h3 h
      rw [hirr a] at this
      exact absurd this (by simp)
    · left
      simpa using h
  have htrans : IsTrans Process (fun a b => less b a = false) :=
    ⟨fun a b c hab hbc => hneg c b a hbc hab⟩
  exact ⟨List.perm_insertionSort _ l, List.sorted_insertionSort _ l⟩

/-- A process kept by `filterProcesses` comes from the input and is eligible. -/
theorem mem_filterProcesses {env : Env} {processes : List Process}
    {protectedNames : List Bytes} {p : Process}
    (h : p ∈ filterProcesses env processes protectedNames) :
    p ∈ processes ∧ p.isZombie = false ∧ p.pid ≠ 1 ∧ p.pid ≠ env.getpid ∧
      ∀ n ∈ protectedNames, env.toLower p.comm ≠ env.toLower n := by
  unfold filterProcesses at h
  simp only [List.mem_filter, Bool.and_eq_true, Bool.not_eq_true', Bool.or_eq_false_iff,
    decide_eq_false_iff_not, List.contains_eq_any_beq, List.any_eq_false, beq_iff_eq,
    List.mem_map, forall_exists_index, and_imp, forall_apply_eq_imp_iff₂] at h
  obtain ⟨hp, ⟨hz, h1, h2⟩, h3⟩ := h
  exact ⟨hp, hz, h1, h2, fun n hn heq => h3 n hn heq⟩

/-- On a non-empty slice `selectVictim` returns an element of the slice with
the largest key. -/
theorem selectVictim_spec (env : Env) (hsort : SortSliceSpec env.sortSlice)
    (l : List Process) (sortByRSS : Bool) (hne : l ≠ []) :
    ∃ v, selectVictim env l sortByRSS = .ok v ∧ v ∈ l ∧
      (sortByRSS = false → ∀ p ∈ l, p.oomScore ≤ v.oomScore) ∧
      (sortByRSS = true → ∀ p ∈ l, p.rss ≤ v.rss) := by
  have key : ∀ less : Process → Process → Bool,
      (∀ a, less a a = false) →
      (∀ a b c, less a b = true → less b c = true → less a c = true) →
      (∀ a b c, less a b = false → less b c = false → less a c = false) →
      ∃ v, goIndex (env.sortSlice less l) 0 = .ok v ∧ v ∈ l ∧ ∀ p ∈ l, less p v = false := by
    intro less h1 h2 h3
    obtain ⟨hperm, hpair⟩ := hsort less h1 h2 h3 l
    cases hs : env.sortSlice less l with
    | nil =>
      rw [hs] at hperm
      exact absurd hperm.symm.eq_nil hne
    | cons v rest =>
      rw [hs] at hperm hpair
      refine ⟨v, by simp [goIndex], hperm.subset (List.mem_cons_self v rest), ?_⟩
      intro p hp
      have hp2 : p ∈ v :: rest := hperm.symm.subset hp
      rcases List.mem_cons.mp hp2 with rfl | hin
      · exact h1 p
      · exact (List.pairwise_cons.mp hpair).1 p hin
  cases sortByRSS with
  | false =>
    obtain ⟨v, hv, hmem, hmax⟩ := key (fun a b => decide (a.oomScore > b.oomScore))
      (by intro a; simp)
      (by intro a b c hab hbc; simp only [gt_iff_lt, decide_eq_true_eq] at *; omega)
      (by intro a b c hab hbc; simp only [gt_iff_lt, decide_eq_false_iff_not] at *; omega)
    refine ⟨v, by simpa [selectVictim] using hv, hmem, ?_, by simp⟩
    intro _ p hp
    have := hmax p hp
    simp only [gt_iff_lt, decide_eq_false_iff_not] at this
    omega
  | true =>
    obtain ⟨v, hv, hmem, hmax⟩ := key (fun a b => decide (a.rss > b.rss))
      (by intro a; simp)
      (by intro a b c hab hbc; simp only [gt_iff_lt, decide_eq_true_eq] at *; omega)
      (by intro a b c hab hbc; simp only [gt_iff_lt, decide_eq_false_iff_not] at *; omega)
    refine ⟨v, by simpa [selectVictim] using hv, hmem, by simp, ?_⟩
    intro _ p hp
    have := hmax p hp
    simp only [gt_iff_lt, decide_eq_false_iff_not] at this
    omega

/-! ## Victim selection: claims C1 to C3 -/

/-- C1: when filtering leaves a process, the victim chosen from the filtered
list, in either sort mode, is not a zombie, is neither pid 1 nor the monitor
itself, and has a name whose lower-cased form differs from the lower-cased form
of every protected name. -/
theorem selectVictim_never_ineligible (env : Env) (hsort : SortSliceSpec env.sortSlice)
    (processes : List Process) (protectedNames : List Bytes) (sortByRSS : Bool)
    (hne : filterProcesses env processes protectedNames ≠ []) :
    ∃ v, selectVictim env (filterProcesses env processes protectedNames) sortByRSS = .ok v ∧
      v.isZombie = false ∧ v.pid ≠ 1 ∧ v.pid ≠ env.getpid ∧
      ∀ n ∈ protectedNames, env.toLower v.comm ≠ env.toLower n := by
  obtain ⟨v, hv, hmem, _⟩ := selectVictim_spec env hsort _ sortByRSS hne
  exact ⟨v, hv, (mem_filterProcesses hmem).2⟩

/-- Witness of C1 on the sample processes, with `SSHD` protected. -/
theorem selectVictim_never_ineligible_witness :
    SortSliceSpec asciiEnv.sortSlice ∧
    filterProcesses asciiEnv sampleProcesses [ascii "SSHD"] ≠ [] ∧
    ∃ v, selectVictim asciiEnv (filterProcesses asciiEnv sampleProcesses [ascii "SSHD"])
        true = .ok v ∧
      v.isZombie = false ∧ v.pid ≠ 1 ∧ v.pid ≠ asciiEnv.getpid ∧
      ∀ n ∈ [ascii "SSHD"], asciiEnv.toLower v.comm ≠ asciiEnv.toLower n :=
  ⟨asciiEnv_sortSlice_spec, by decide,
    selectVictim_never_ineligible asciiEnv asciiEnv_sortSlice_spec sampleProcesses
      [ascii "SSHD"] true (by decide)⟩

/-- C2: on a non-empty list `selectVictim` returns an element of the list with
the largest `oomScore` (default mode) or the largest `rss` (`sortByRSS`); for
A(oomScore=500, rss=100) and B(oomScore=900, rss=50) the default mode returns B
and the `sortByRSS` mode returns A. -/
theorem selectVictim_maximal_key (env : Env) (hsort : SortSliceSpec env.sortSlice) :
    (∀ (l : List Process) (sortByRSS : Bool), l ≠ [] →
      ∃ v, selectVictim env l sortByRSS = .ok v ∧ v ∈ l ∧
        (sortByRSS = false → ∀ p ∈ l, p.oomScore ≤ v.oomScore) ∧
        (sortByRSS = true → ∀ p ∈ l, p.rss ≤ v.rss)) ∧
    (∀ A B : Process, A.oomScore = 500 → A.rss = 100 → B.oomScore = 900 → B.rss = 50 →
      selectVictim env [A, B] false = .ok B ∧ selectVictim env [A, B] true = .ok A) := by
  refine ⟨fun l b hne => selectVictim_spec env hsort l b hne, ?_⟩
  intro A B hAo hAr hBo hBr
  constructor
  · obtain ⟨v, hv, hmem, hmax, _⟩ := selectVictim_spec env hsort [A, B] false (by simp)
    have hB := hmax rfl B (by simp)
    simp only [List.mem_cons, List.mem_singleton, List.not_mem_nil, or_false] at hmem
    rcases hmem with rfl | rfl
    · omega
    · exact hv
  · obtain ⟨v, hv, hmem, _, hmax⟩ := selectVictim_spec env hsort [A, B] true (by simp)
    have hA := hmax rfl A (by simp)
    simp only [List.mem_cons, List.mem_singleton, List.not_mem_nil, or_false] at hmem
    rcases hmem with rfl | rfl
    · exact hv
    · omega

/-- Witness of C2 in the concrete environment: the victim among the sample
processes, and among the two processes A and B of the claim. -/
theorem selectVictim_maximal_key_witness :
    SortSliceSpec asciiEnv.sortSlice ∧
    (sampleProcesses ≠ [] ∧
      ∃ v, selectVictim asciiEnv sampleProcesses false = .ok v ∧ v ∈ sampleProcesses ∧
        ((false : Bool) = false → ∀ p ∈ sampleProcesses, p.oomScore ≤ v.oomScore) ∧
        ((false : Bool) = true → ∀ p ∈ sampleProcesses, p.rss ≤ v.rss)) ∧
    (sampleA.oomScore = 500 ∧ sampleA.rss = 100 ∧ sampleB.oomScore = 900 ∧ sampleB.rss = 50 ∧
      selectVictim asciiEnv [sampleA, sampleB] false = .ok sampleB ∧
      selectVictim asciiEnv [sampleA, sampleB] true = .ok sampleA) :=
  ⟨asciiEnv_sortSlice_spec, ⟨by decide,
    (selectVictim_maximal_key asciiEnv asciiEnv_sortSlice_spec).1 sampleProcesses false
      (by decide)⟩,
    rfl, rfl, rfl, rfl,
    (selectVictim_maximal_key asciiEnv asciiEnv_sortSlice_spec).2 sampleA sampleB
      rfl rfl rfl rfl⟩

/-- C3: when every process is a zombie, pid 1, the monitor itself, or named like
a protected name up to letter case, `filterProcesses` returns the empty list and
the tick, whatever the pressure flags, chooses no victim and no signal and calls
`killProcess` not at all; it does not reach `selectVictim`. -/
theorem tick_no_eligible_victim (env : Env) (cfg : Config) (processes : List Process)
    (hall : ∀ p ∈ processes, p.isZombie = true ∨ p.pid = 1 ∨ p.pid = env.getpid ∨
      ∃ n ∈ cfg.protectProcesses, env.toLower p.comm = env.toLower n) :
    filterProcesses env processes cfg.protectProcesses = [] ∧
    ∀ needTerm needKill : Bool,
      tick env cfg needTerm needKill (.ok processes) =
        .ok { victim := none, signal := none, kills := [] } := by
  have hnil : filterProcesses env processes cfg.protectProcesses = [] := by
    rw [List.eq_nil_iff_forall_not_mem]
    intro p hp
    obtain ⟨hin, hz, h1, h2, h3⟩ := mem_filterProcesses hp
    rcases hall p hin with h | h | h | ⟨n, hn, h⟩
    · rw [hz] at h
      exact absurd h (by simp)
    · exact h1 h
    · exact h2 h
    · exact h3 n hn h
  refine ⟨hnil, fun needTerm needKill => ?_⟩
  unfold tick
  simp [hnil]

/-- Witness of C3 on the four ineligible sample processes. -/
theorem tick_no_eligible_victim_witness :
    (∀ p ∈ sampleIneligible, p.isZombie = true ∨ p.pid = 1 ∨ p.pid = asciiEnv.getpid ∨
      ∃ n ∈ sampleConfig.protectProcesses, asciiEnv.toLower p.comm = asciiEnv.toLower n) ∧
    filterProcesses asciiEnv sampleIneligible sampleConfig.protectProcesses = [] ∧
    ∀ needTerm needKill : Bool,
      tick asciiEnv sampleConfig needTerm needKill (.ok sampleIneligible) =
        .ok { victim := none, signal := none, kills := [] } :=
  ⟨by decide, tick_no_eligible_victim asciiEnv sampleConfig sampleIneligible (by decide)⟩

/-! ## The status record: claims C4 and C5 -/

/-- C4, the code at two failing inputs.  On the status record `1 (a)`, which ends
at the closing parenthesis, no field follows the `)`, and `readStat` in any
environment does not return the error for too few fields: the slice
`str[lastParen+2:]` starts beyond the end of the string and the program panics.
On `nbspRecord` 23 fields follow the `)`, and `readStat` returns a record: the
slice drops the first byte of the no-break space, and the byte left over counts as
a 24th field, whose first byte `A0` becomes the state. -/
theorem readStat_panics_after_last_paren (env : Env) :
    ((stringsFields ((ascii "1 (a)").drop 5)).length < 24 ∧
      readStat env (.ok (ascii "1 (a)")) = .panic) ∧
    ((stringsFields (nbspRecord.drop 5)).length = 23 ∧
      (readStat env (.ok nbspRecord)).bind (fun s => .ok s.state) = .ok 0xA0) :=
  ⟨⟨by decide, rfl⟩, ⟨by decide, rfl⟩⟩

/-- C5, the code at the failing input: on the status record `)(`, where the only
closing parenthesis stands before the only opening one, `readStat` in any
environment does not return an error; the slice `str[firstParen+1:lastParen]`
has its start after its end and the program panics. -/
theorem readStat_panics_on_reversed_parens (env : Env) :
    stringsIndex (ascii ")(") 40 = 1 ∧ stringsLastIndex (ascii ")(") 41 = 0 ∧
    readStat env (.ok (ascii ")(")) = .panic :=
  ⟨by decide, by decide, rfl⟩

/-! ## The command line: claims C7 and C8 -/

theorem stringsSplit_ne_nil (sep : UInt8) (s : Bytes) : stringsSplit sep s ≠ [] := by
  cases s with
  | nil => simp [stringsSplit]
  | cons b rest =>
    unfold stringsSplit
    split
    · simp
    · split <;> simp

/-- Splitting `t ++ r` when `t` holds no separator: `t` goes in front of the first
part of `r`. -/
theorem stringsSplit_append (sep : UInt8) (t r : Bytes) (ht : sep ∉ t) (h : Bytes)
    (tl : List Bytes) (hr : stringsSplit sep r = h :: tl) :
    stringsSplit sep (t ++ r) = (t ++ h) :: tl := by
  induction t with
  | nil => simpa using hr
  | cons b t ih =>
    have hb : b ≠ sep := fun e => ht (by simp [e])
    have ht2 : sep ∉ t := fun e => ht (by simp [e])
    show stringsSplit sep (b :: (t ++ r)) = (b :: (t ++ h)) :: tl
    rw [stringsSplit, if_neg hb, ih ht2]

/-- Splitting undoes joining when no part holds the separator. -/
theorem stringsSplit_join (sep : UInt8) (ts : List Bytes) (hne : ts ≠ [])
    (h : ∀ t ∈ ts, sep ∉ t) : stringsSplit sep (stringsJoin [sep] ts) = ts := by
  induction ts with
  | nil => exact absurd rfl hne
  | cons a rest ih =>
    cases rest with
    | nil =>
      have := stringsSplit_append sep a [] (h a (by simp)) [] [] (by simp [stringsSplit])
      simpa [stringsJoin] using this
    | cons b rest =>
      have hrest := ih (by simp) (fun t ht => h t (List.mem_cons_of_mem _ ht))
      have hsep : stringsSplit sep ([sep] ++ stringsJoin [sep] (b :: rest)) =
          [] :: b :: rest := by
        simp [stringsSplit, hrest]
      have := stringsSplit_append sep a _ (h a (by simp)) [] (b :: rest) hsep
      simpa [stringsJoin] using this

/-- Joining undoes splitting. -/
theorem stringsJoin_split (sep : UInt8) (s : Bytes) :
    stringsJoin [sep] (stringsSplit sep s) = s := by
  induction s with
  | nil => simp [stringsSplit, stringsJoin]
  | cons b rest ih =>
    unfold stringsSplit
    by_cases hb : b = sep
    · simp only [hb, if_true]
      cases hs : stringsSplit sep rest with
      | nil => exact absurd hs (stringsSplit_ne_nil sep rest)
      | cons t ts =>
        rw [hs] at ih
        simp [stringsJoin, ih]
    · simp only [hb, if_false]
      cases hs : stringsSplit sep rest with
      | nil => exact absurd hs (stringsSplit_ne_nil sep rest)
      | cons t ts =>
        rw [hs] at ih
        cases ts with
        | nil => simpa [stringsJoin] using ih
        | cons u us =>
          simp only [stringsJoin] at ih ⊢
          simp [← ih]

/-- No part of a split holds the separator. -/
theorem not_mem_of_mem_stringsSplit (sep : UInt8) (s : Bytes) :
    ∀ t ∈ stringsSplit sep s, sep ∉ t := by
  induction s with
  | nil => simp [stringsSplit]
  | cons b rest ih =>
    unfold stringsSplit
    by_cases hb : b = sep
    · simp only [hb, if_true]
      intro t ht
      rcases List.mem_cons.mp ht with rfl | ht
      · simp
      · exact ih t ht
    · simp only [hb, if_false]
      cases hs : stringsSplit sep rest with
      | nil => exact absurd hs (stringsSplit_ne_nil sep rest)
      | cons u us =>
        rw [hs] at ih
        intro t ht
        rcases List.mem_cons.mp ht with rfl | ht
        · intro hmem
          rcases List.mem_cons.mp hmem with e | e
          · exact hb e.symm
          · exact ih u (by simp) e
        · exact ih t (List.mem_cons_of_mem _ ht)

/-- The slice `parts[:len(parts)-1]` of a non-empty slice is in range. -/
theorem goSliceTo_length_pred {α : Type} (l : List α) (hne : l ≠ []) :
    goSliceTo l ((l.length : Int) - 1) = some l.dropLast := by
  have hpos : 0 < l.length := List.length_pos.mpr hne
  unfold goSliceTo goSlice
  rw [if_pos (by omega)]
  have : ((l.length : Int) - 1).toNat = l.length - 1 := by omega
  simp [this, List.dropLast_eq_take]

/-- What `readCmdline` returns on a file it could read. -/
theorem readCmdline_ok (content : Bytes) :
    readCmdline (.ok content) = .ok (stringsJoin [32] (stringsSplit 0 content).dropLast) := by
  simp [readCmdline, goSliceTo_length_pred _ (stringsSplit_ne_nil 0 content), ofSlice,
    Outcome.bind]

/-- Tokens each followed by a separator are the join of the tokens and one more,
empty token. -/
theorem flatMap_append_sep (sep : UInt8) (tokens : List Bytes) :
    tokens.flatMap (fun t => t ++ [sep]) = stringsJoin [sep] (tokens ++ [[]]) := by
  induction tokens with
  | nil => simp [stringsJoin]
  | cons a rest ih =>
    cases rest with
    | nil => simp [stringsJoin]
    | cons b rest =>
      simp only [List.flatMap_cons] at ih ⊢
      simp [stringsJoin, ih]

/-- C7, the claim fails: for the content `f o o NUL b a r NUL NUL` the parser does
not return `foo bar`. -/
theorem readCmdline_foo_bar_counterexample :
    readCmdline (.ok [102, 111, 111, 0, 98, 97, 114, 0, 0]) ≠ .ok (ascii "foo bar") := by
  decide

/-- C7 as amended: for the content `f o o NUL b a r NUL NUL` the NUL-separated
tokens are `foo`, `bar` and two empty tokens; only the last one is dropped, and the
parser returns `foo bar` followed by one space. -/
theorem readCmdline_foo_bar :
    stringsSplit 0 [102, 111, 111, 0, 98, 97, 114, 0, 0] = [ascii "foo", ascii "bar", [], []] ∧
    readCmdline (.ok [102, 111, 111, 0, 98, 97, 114, 0, 0]) = .ok (ascii "foo bar ") := by
  decide

/-- C8: on every content that could be read the command-line parser returns a
value (no index out of range): the content is in exactly one way a sequence of
NUL-free tokens with one NUL between neighbours, and the value is these tokens without
the last, joined by single spaces.  So tokens each followed by one NUL decode to the
tokens joined by single spaces, and the empty content decodes to the empty string. -/
theorem readCmdline_tokens :
    (∀ content : Bytes, ∃ ts : List Bytes, ts ≠ [] ∧ (∀ t ∈ ts, (0 : UInt8) ∉ t) ∧
      stringsJoin [0] ts = content ∧
      readCmdline (.ok content) = .ok (stringsJoin [32] ts.dropLast)) ∧
    (∀ ts : List Bytes, ts ≠ [] → (∀ t ∈ ts, (0 : UInt8) ∉ t) →
      readCmdline (.ok (stringsJoin [0] ts)) = .ok (stringsJoin [32] ts.dropLast)) ∧
    (∀ tokens : List Bytes, (∀ t ∈ tokens, (0 : UInt8) ∉ t) →
      readCmdline (.ok (tokens.flatMap (fun t => t ++ [0]))) = .ok (stringsJoin [32] tokens)) ∧
    readCmdline (.ok []) = .ok [] := by
  refine ⟨fun content => ?_, fun ts hne h => ?_, fun tokens h => ?_, by decide⟩
  · exact ⟨stringsSplit 0 content, stringsSplit_ne_nil 0 content,
      not_mem_of_mem_stringsSplit 0 content, stringsJoin_split 0 content,
      readCmdline_ok content⟩
  · rw [readCmdline_ok, stringsSplit_join 0 ts hne h]
  · rw [readCmdline_ok, flatMap_append_sep, stringsSplit_join 0 _ (by simp)]
    · simp
    · intro t ht
      rcases List.mem_append.mp ht with ht | ht
      · exact h t ht
      · simp only [List.mem_singleton] at ht
        simp [ht]

/-- Witness of C8: the command line `ls -l /tmp`, as the kernel writes it and as
three tokens. -/
theorem readCmdline_tokens_witness :
    ([ascii "ls", ascii "-l", ascii "/tmp", []] ≠ [] ∧
      (∀ t ∈ [ascii "ls", ascii "-l", ascii "/tmp", []], (0 : UInt8) ∉ t) ∧
      readCmdline (.ok (stringsJoin [0] [ascii "ls", ascii "-l", ascii "/tmp", []])) =
        .ok (stringsJoin [32] [ascii "ls", ascii "-l", ascii "/tmp", []].dropLast)) ∧
    ((∀ t ∈ [ascii "ls", ascii "-l", ascii "/tmp"], (0 : UInt8) ∉ t) ∧
      readCmdline (.ok ([ascii "ls", ascii "-l", ascii "/tmp"].flatMap (fun t => t ++ [0]))) =
        .ok (stringsJoin [32] [ascii "ls", ascii "-l", ascii "/tmp"])) ∧
    stringsJoin [32] [ascii "ls", ascii "-l", ascii "/tmp"] = ascii "ls -l /tmp" :=
  ⟨⟨by decide, by decide, readCmdline_tokens.2.1 _ (by decide) (by decide)⟩,
    ⟨by decide, readCmdline_tokens.2.2.1 _ (by decide)⟩, by decide⟩

/-! ## Resident memory: claims C9 and C10 -/

theorem le_decimalFrom (s : Bytes) (n : Nat) : n ≤ decimalFrom n s := by
  induction s generalizing n with
  | nil => simp [decimalFrom]
  | cons c rest ih =>
    have := ih (n * 10 + (c.toNat - 48))
    simp only [decimalFrom, List.foldl_cons] at this ⊢
    omega

/-- The loop of `ParseUint` in terms of the leading digits of the string: an
overflow of the leading digits gives the largest value and `ErrRange`; otherwise
a byte that is no digit gives `0` and `ErrSyntax`; otherwise the value. -/
theorem parseUintLoop_eq (s : Bytes) (n : Nat) (hn : n < 2 ^ 64) :
    parseUintLoop 64 s n =
      if 2 ^ 64 ≤ decimalFrom n (s.takeWhile isDigit) then (2 ^ 64 - 1, some .numRange)
      else if (s.takeWhile isDigit).length < s.length then (0, some .numSyntax)
      else (decimalFrom n s, none) := by
  induction s generalizing n with
  | nil =>
    have : ¬ (2 ^ 64 ≤ n) := by omega
    rw [parseUintLoop]
    simp only [List.takeWhile_nil, decimalFrom, List.foldl_nil]
    rw [if_neg this]
    simp
  | cons c rest ih =>
    by_cases hd : isDigit c = true
    · have hd2 : 48 ≤ c.toNat ∧ c.toNat ≤ 57 := by
        simpa [isDigit] using hd
      have htw : (c :: rest).takeWhile isDigit = c :: rest.takeWhile isDigit := by
        simp [List.takeWhile, hd]
      have hstep : ∀ l : Bytes, decimalFrom n (c :: l) =
          decimalFrom (n * 10 + (c.toNat - 48)) l := fun l => rfl
      rw [htw, hstep, hstep]
      have hge := le_decimalFrom (rest.takeWhile isDigit) (n * 10 + (c.toNat - 48))
      rw [parseUintLoop, if_pos hd2]
      by_cases h1 : n ≥ (2 ^ 64 - 1) / 10 + 1
      · rw [if_pos h1, if_pos (by omega)]
      · rw [if_neg h1]
        simp only []
        by_cases h2 : n * 10 + (c.toNat - 48) ≥ 2 ^ 64 ∨ n * 10 + (c.toNat - 48) > 2 ^ 64 - 1
        · rw [if_pos h2, if_pos (by omega)]
        · rw [if_neg h2, ih _ (by omega)]
          simp only [List.length_cons, Nat.add_lt_add_iff_right]
    · have hd2 : ¬ (48 ≤ c.toNat ∧ c.toNat ≤ 57) := by
        simpa [isDigit] using hd
      have htw : (c :: rest).takeWhile isDigit = [] := by
        simp [List.takeWhile, hd]
      have : ¬ (2 ^ 64 ≤ n) := by omega
      rw [parseUintLoop, if_neg hd2, htw]
      simp only [decimalFrom, List.foldl_nil]
      rw [if_neg this]
      simp

/-- Go `ParseUint(s, 10, 64)` in terms of the leading digits of `s`. -/
theorem parseUint_eq (s : Bytes) :
    parseUint s 64 =
      if 2 ^ 64 ≤ decimalValue (s.takeWhile isDigit) then (2 ^ 64 - 1, some .numRange)
      else if s = [] ∨ (s.takeWhile isDigit).length < s.length then (0, some .numSyntax)
      else (decimalValue s, none) := by
  unfold parseUint decimalValue
  by_cases hs : s = []
  · subst hs
    simp [decimalFrom]
  · rw [if_neg hs, parseUintLoop_eq s 0 (by norm_num)]
    simp [hs]

theorem goIndex_of_lt {α : Type} (l : List α) (i : Nat) (h : i < l.length) :
    goIndex l i = .ok l[i] := by
  simp [goIndex, List.getElem?_eq_getElem h]

/-- A bind that returns a value ran both of its parts. -/
theorem Outcome.bind_eq_ok {α β : Type} {x : Outcome α} {f : α → Outcome β} {b : β}
    (h : x.bind f = .ok b) : ∃ a, x = .ok a ∧ f a = .ok b := by
  cases x with
  | ok a => exact ⟨a, rfl, h⟩
  | error e => simp [Outcome.bind] at h
  | panic => simp [Outcome.bind] at h

/-- With seven fields or more `readStatm` returns the values `ParseUint` gives for
the first seven, whatever the errors. -/
theorem readStatm_ok (content : Bytes) (h7 : 7 ≤ (stringsFields content).length) :
    ∃ s, readStatm (.ok content) = .ok s ∧
      statmFields s = ((stringsFields content).take 7).map fun f => (parseUint f 64).1 := by
  generalize hf : stringsFields content = fields at h7
  match fields, h7 with
  | f0 :: f1 :: f2 :: f3 :: f4 :: f5 :: f6 :: rest, _ =>
    refine ⟨{ size := (parseUint f0 64).1, rss := (parseUint f1 64).1,
              share := (parseUint f2 64).1, text := (parseUint f3 64).1,
              lib := (parseUint f4 64).1, data := (parseUint f5 64).1,
              dt := (parseUint f6 64).1 }, ?_, ?_⟩
    · simp [readStatm, hf, goIndex, Outcome.bind]
    · simp [statmFields]

/-- A string with a byte that is no digit has fewer leading digits than bytes. -/
theorem length_takeWhile_isDigit_lt (f : Bytes) (h : ∃ c ∈ f, isDigit c = false) :
    (f.takeWhile isDigit).length < f.length := by
  obtain ⟨c, hc, hcd⟩ := h
  have hle : (f.takeWhile isDigit).length ≤ f.length :=
    (List.takeWhile_prefix isDigit).length_le
  rcases Nat.lt_or_ge (f.takeWhile isDigit).length f.length with hlt | hge
  · exact hlt
  · have heq : f.takeWhile isDigit = f :=
      (List.takeWhile_prefix isDigit).eq_of_length (by omega)
    have := List.takeWhile_eq_self_iff.mp heq c hc
    rw [hcd] at this
    exact absurd this (by simp)

/-- C9, the code on every input: the `rss` that `getProcessInfo` stores in the
`Process` is the resident page count of the statistics record times the page size,
reduced modulo 2^64: a number of bytes.  Nothing divides it by 1024. -/
theorem getProcessInfo_rss_in_bytes (env : Env) (files : ProcFiles) (pid : Int) (p : Process)
    (h : getProcessInfo env files pid = .ok p) :
    ∃ st, readStatm files.statm = .ok st ∧
      p.rss = st.rss * toUint64 (getPageSize env) % 2 ^ 64 := by
  unfold getProcessInfo at h
  obtain ⟨oom, _, h⟩ := Outcome.bind_eq_ok h
  obtain ⟨st, hst, h⟩ := Outcome.bind_eq_ok h
  obtain ⟨comm, _, h⟩ := Outcome.bind_eq_ok h
  obtain ⟨cmdline, _, h⟩ := Outcome.bind_eq_ok h
  obtain ⟨stat, _, h⟩ := Outcome.bind_eq_ok h
  refine ⟨st, hst, ?_⟩
  cases h
  rfl

/-- C9 at the failing input: 300 resident pages of 4096 bytes are stored as
1228800, the size in bytes, not as 1200, the size in KiB. -/
theorem getProcessInfo_rss_in_bytes_witness :
    getProcessInfo asciiEnv sampleFiles 30 =
      .ok { pid := 30, oomScore := 500, rss := 1228800, comm := ascii "a",
            cmdline := ascii "a", uid := 1000, isZombie := false } ∧
    (∃ st, readStatm sampleFiles.statm = .ok st ∧
      (1228800 : Nat) = st.rss * toUint64 (getPageSize asciiEnv) % 2 ^ 64) ∧
    readStatm sampleFiles.statm =
      .ok { size := 2500, rss := 300, share := 120, text := 10, lib := 0, data := 500,
            dt := 0 } ∧
    300 * toUint64 (getPageSize asciiEnv) / 1024 = 1200 :=
  ⟨by decide,
    getProcessInfo_rss_in_bytes asciiEnv sampleFiles 30
      { pid := 30, oomScore := 500, rss := 1228800, comm := ascii "a",
        cmdline := ascii "a", uid := 1000, isZombie := false } (by decide),
    by decide, by decide⟩

/-- C10, the claim fails: in the statistics record
`10 18446744073709551616 3 4 5 6 7` the second field is out of range for 64 bits,
the parse succeeds, and `rss` is not 0 but 18446744073709551615. -/
theorem readStatm_out_of_range_counterexample :
    7 ≤ (stringsFields (ascii "10 18446744073709551616 3 4 5 6 7\n")).length ∧
    (parseUint (ascii "18446744073709551616") 64).2 = some .numRange ∧
    readStatm (.ok (ascii "10 18446744073709551616 3 4 5 6 7\n")) =
      .ok { size := 10, rss := 18446744073709551615, share := 3, text := 4, lib := 5,
            data := 6, dt := 7 } ∧
    ¬ ∃ s, readStatm (.ok (ascii "10 18446744073709551616 3 4 5 6 7\n")) = .ok s ∧
      s.rss = 0 := by
  have h : readStatm (.ok (ascii "10 18446744073709551616 3 4 5 6 7\n")) =
      .ok { size := 10, rss := 18446744073709551615, share := 3, text := 4, lib := 5,
            data := 6, dt := 7 } := by decide
  refine ⟨by decide, by decide, h, ?_⟩
  rintro ⟨s, hs, hz⟩
  rw [h] at hs
  cases hs
  exact absurd hz (by decide)

/-- C10 as amended: on a statistics record with at least 7 fields the parse
succeeds, and each of the first seven fields of the file gives the value of
`ParseUint`: 0 when the field holds a byte that is no digit and the digits before
it do not overflow 64 bits (a syntax error), and 2^64 - 1 when its leading digits
overflow 64 bits (a range error). -/
theorem readStatm_unparsable_field (content : Bytes)
    (h7 : 7 ≤ (stringsFields content).length) :
    ∃ s, readStatm (.ok content) = .ok s ∧
      ∀ (i : Nat) (f : Bytes), i < 7 → (stringsFields content)[i]? = some f →
        (statmFields s)[i]? = some (parseUint f 64).1 ∧
        ((∃ c ∈ f, isDigit c = false) → decimalValue (f.takeWhile isDigit) < 2 ^ 64 →
          (statmFields s)[i]? = some 0) ∧
        (2 ^ 64 ≤ decimalValue (f.takeWhile isDigit) →
          (statmFields s)[i]? = some (2 ^ 64 - 1)) := by
  obtain ⟨s, hs, hfields⟩ := readStatm_ok content h7
  refine ⟨s, hs, fun i f hi hf => ?_⟩
  have hval : (statmFields s)[i]? = some (parseUint f 64).1 := by
    rw [hfields, List.getElem?_map, List.getElem?_take]
    simp [hi, hf]
  refine ⟨hval, fun hnd hlt => ?_, fun hge => ?_⟩
  · rw [hval, parseUint_eq, if_neg (by omega),
      if_pos (Or.inr (length_takeWhile_isDigit_lt f hnd))]
  · rw [hval, parseUint_eq, if_pos hge]

/-- Witness of C10: a record whose second field overflows 64 bits and whose third
field holds a letter. -/
theorem readStatm_unparsable_field_witness :
    7 ≤ (stringsFields (ascii "10 18446744073709551616 12x 4 5 6 7\n")).length ∧
    (∃ s, readStatm (.ok (ascii "10 18446744073709551616 12x 4 5 6 7\n")) = .ok s ∧
      ∀ (i : Nat) (f : Bytes), i < 7 →
        (stringsFields (ascii "10 18446744073709551616 12x 4 5 6 7\n"))[i]? = some f →
        (statmFields s)[i]? = some (parseUint f 64).1 ∧
        ((∃ c ∈ f, isDigit c = false) → decimalValue (f.takeWhile isDigit) < 2 ^ 64 →
          (statmFields s)[i]? = some 0) ∧
        (2 ^ 64 ≤ decimalValue (f.takeWhile isDigit) →
          (statmFields s)[i]? = some (2 ^ 64 - 1))) ∧
    readStatm (.ok (ascii "10 18446744073709551616 12x 4 5 6 7\n")) =
      .ok { size := 10, rss := 18446744073709551615, share := 0, text := 4, lib := 5,
            data := 6, dt := 7 } :=
  ⟨by decide,
    readStatm_unparsable_field (ascii "10 18446744073709551616 12x 4 5 6 7\n") (by decide),
    by decide⟩

/-! ## The status record: claim C6 -/

theorem leadInfo_some {b : UInt8} {sz lo hi : Nat} (h : leadInfo b = some (sz, lo, hi)) :
    2 ≤ sz ∧ sz ≤ 4 ∧ 0x80 ≤ lo := by
  unfold leadInfo at h
  simp only [] at h
  split_ifs at h <;> simp only [Option.some.injEq, Prod.mk.injEq] at h <;>
    (obtain ⟨rfl, rfl, rfl⟩ := h; omega)

theorem decodeRune_append_ascii (s t : Bytes) (x : UInt8) (hx : x.toNat < 0x80)
    (hs : s ≠ []) : decodeRune (s ++ x :: t) = decodeRune s := by
  have hxc : isCont x = false := by
    simp only [isCont, Bool.and_eq_false_iff, decide_eq_false_iff_not]
    omega
  rcases s with _ | ⟨s0, _ | ⟨s1, _ | ⟨s2, _ | ⟨s3, u⟩⟩⟩⟩
  · exact absurd rfl hs
  all_goals
    simp only [List.cons_append, List.nil_append]
    rcases hl : leadInfo s0 with _ | ⟨sz, lo, hi⟩
    · unfold decodeRune
      simp only [hl]
    · obtain ⟨hsz, hsz4, hlo⟩ := leadInfo_some hl
      have hxlo : x.toNat < lo := by omega
      unfold decodeRune
      simp only [hl, List.length_cons, List.length_nil, List.length_append, hxc]
      have h3 : sz = 2 ∨ sz = 3 ∨ sz = 4 := by omega
      simp only [hxlo, true_or, if_true, Bool.not_false, Bool.not_eq_true']
      by_cases h0 : s0.toNat < 128
      · simp only [h0, if_true]
      · simp only [h0, if_false]
        have h3 : sz = 2 ∨ sz = 3 ∨ sz = 4 := by omega
        rcases h3 with rfl | rfl | rfl <;> norm_num <;>
          split_ifs <;> first | rfl | omega

theorem decodeRune_width (s : Bytes) (hs : s ≠ []) :
    1 ≤ (decodeRune s).2 ∧ (decodeRune s).2 ≤ s.length := by
  rcases s with _ | ⟨s0, _ | ⟨s1, _ | ⟨s2, _ | ⟨s3, t⟩⟩⟩⟩
  · exact absurd rfl hs
  all_goals
    rcases hl : leadInfo s0 with _ | ⟨sz, lo, hi⟩
    · unfold decodeRune
      simp only [hl]
      split_ifs <;> simp
    · obtain ⟨hsz, hsz4, hlo⟩ := leadInfo_some hl
      unfold decodeRune
      simp only [hl, List.length_cons, List.length_nil]
      have h3 : sz = 2 ∨ sz = 3 ∨ sz = 4 := by omega
      rcases h3 with rfl | rfl | rfl <;> split_ifs <;> simp

theorem decodeRune_ascii (x : UInt8) (t : Bytes) (hx : x.toNat < 0x80) :
    decodeRune (x :: t) = (x.toNat, 1) := by
  unfold decodeRune
  simp [hx]

/-- More fuel than the length of the string does not change the loop. -/
theorem rangeLoop_fuel (fuel fuel2 : Nat) (s : Bytes) (h1 : s.length ≤ fuel)
    (h2 : s.length ≤ fuel2) : rangeLoop fuel s = rangeLoop fuel2 s := by
  induction fuel generalizing fuel2 s with
  | zero =>
    have hs : s = [] := List.length_eq_zero.mp (by omega)
    subst hs
    cases fuel2 <;> rfl
  | succ n ih =>
    cases s with
    | nil => cases fuel2 <;> rfl
    | cons b t =>
      cases fuel2 with
      | zero => simp at h2
      | succ m =>
        have hw := decodeRune_width (b :: t) (by simp)
        simp only [rangeLoop]
        rw [ih m _ (by simp only [List.length_drop, List.length_cons] at *; omega)
          (by simp only [List.length_drop, List.length_cons] at *; omega)]

/-- One iteration of the loop over a non-empty string. -/
theorem rangeString_cons (s : Bytes) (hs : s ≠ []) :
    rangeString s =
      ((decodeRune s).1, s.take (decodeRune s).2) :: rangeString (s.drop (decodeRune s).2) := by
  cases s with
  | nil => exact absurd rfl hs
  | cons b t =>
    have hw := decodeRune_width (b :: t) (by simp)
    simp only [rangeString, List.length_cons, rangeLoop]
    rw [rangeLoop_fuel t.length _ _
      (by simp only [List.length_drop, List.length_cons] at *; omega) (le_refl _)]

theorem rangeString_nil : rangeString [] = [] := rfl

/-- The loop passes an ASCII byte as a character of its own, whatever stands
before it. -/
theorem rangeString_append_ascii (s t : Bytes) (x : UInt8) (hx : x.toNat < 0x80) :
    rangeString (s ++ x :: t) = rangeString s ++ (x.toNat, [x]) :: rangeString t := by
  generalize hn : s.length = n
  induction n using Nat.strong_induction_on generalizing s with
  | _ n ih =>
    subst hn
    by_cases hs : s = []
    · subst hs
      rw [List.nil_append, rangeString_cons _ (by simp), decodeRune_ascii x t hx]
      simp [rangeString_nil]
    · have hw := decodeRune_width s hs
      rw [rangeString_cons (s ++ x :: t) (by simp), decodeRune_append_ascii s t x hx hs,
        rangeString_cons s hs, List.take_append_of_le_length hw.2,
        List.drop_append_of_le_length hw.2,
        ih (s.drop (decodeRune s).2).length (by simp only [List.length_drop]; omega) _ rfl]
      simp

/-- The characters of a string span the string. -/
theorem flatMap_rangeString (s : Bytes) : (rangeString s).flatMap (fun r => r.2) = s := by
  generalize hn : s.length = n
  induction n using Nat.strong_induction_on generalizing s with
  | _ n ih =>
    subst hn
    by_cases hs : s = []
    · subst hs
      simp [rangeString_nil]
    · have hw := decodeRune_width s hs
      rw [rangeString_cons s hs, List.flatMap_cons,
        ih (s.drop (decodeRune s).2).length (by simp only [List.length_drop]; omega) _ rfl]
      simp

/-- Characters that are no white space extend the open field. -/
theorem fieldsLoop_append (rs rest : List (Nat × Bytes)) (cur : Bytes)
    (h : ∀ r ∈ rs, isSpace r.1 = false) :
    fieldsLoop (rs ++ rest) cur = fieldsLoop rest (cur ++ rs.flatMap (fun r => r.2)) := by
  induction rs generalizing cur with
  | nil => simp
  | cons r rs ih =>
    obtain ⟨c, bs⟩ := r
    have hc : isSpace c = false := h (c, bs) (by simp)
    rw [List.cons_append, fieldsLoop, if_neg (by simp [hc]),
      ih _ (fun r hr => h r (List.mem_cons_of_mem _ hr))]
    simp

/-- Go `strings.Fields` undoes `strings.Join` with a single space, when every
element is non-empty and free of white space. -/
theorem stringsFields_join (fs : List Bytes)
    (h : ∀ f ∈ fs, f ≠ [] ∧ spaceFree f = true) :
    stringsFields (stringsJoin [32] fs) = fs := by
  have hfree : ∀ f ∈ fs, ∀ r ∈ rangeString f, isSpace r.1 = false := by
    intro f hf r hr
    have := (h f hf).2
    simp only [spaceFree, List.all_eq_true, Bool.not_eq_true'] at this
    exact this r hr
  induction fs with
  | nil => rfl
  | cons a rest ih =>
    have ha := h a (by simp)
    cases rest with
    | nil =>
      have := fieldsLoop_append (rangeString a) [] [] (hfree a (by simp))
      rw [List.append_nil, flatMap_rangeString] at this
      simp only [stringsJoin, stringsFields, this, fieldsLoop, List.nil_append]
      simp [ha.1]
    | cons b rest =>
      have hrec := ih (fun f hf => h f (List.mem_cons_of_mem _ hf))
        (fun f hf => hfree f (List.mem_cons_of_mem _ hf))
      have h32 : isSpace (32 : UInt8).toNat = true := by decide
      simp only [stringsJoin, stringsFields, List.append_assoc, List.singleton_append]
      rw [rangeString_append_ascii a _ 32 (by decide),
        fieldsLoop_append _ _ _ (hfree a (by simp)), List.nil_append, flatMap_rangeString]
      simp only [fieldsLoop, h32, if_true]
      have hane : a.isEmpty = false := by
        cases a with
        | nil => exact absurd rfl ha.1
        | cons _ _ => rfl
      simp only [hane, Bool.false_eq_true, if_false]
      rw [show fieldsLoop (rangeString (stringsJoin [32] (b :: rest))) [] =
        stringsFields (stringsJoin [32] (b :: rest)) from rfl, hrec]

theorem Outcome.bind_ok {α β : Type} (a : α) (f : α → Outcome β) :
    (Outcome.ok a).bind f = f a := rfl

theorem indexByteFrom_append (c : UInt8) (pre rest : Bytes) (i : Nat) (h : c ∉ pre) :
    indexByteFrom c (pre ++ c :: rest) i = some (i + pre.length) := by
  induction pre generalizing i with
  | nil => simp [indexByteFrom]
  | cons b pre ih =>
    have hb : b ≠ c := fun e => h (by simp [e])
    rw [List.cons_append, indexByteFrom, if_neg hb, ih _ (fun e => h (by simp [e]))]
    simp only [List.length_cons]
    congr 1
    omega

theorem lastIndexByteFrom_none (c : UInt8) (s : Bytes) (i : Nat) (h : c ∉ s) :
    lastIndexByteFrom c s i = none := by
  induction s generalizing i with
  | nil => rfl
  | cons b s ih =>
    have hb : b ≠ c := fun e => h (by simp [e])
    rw [lastIndexByteFrom, ih _ (fun e => h (by simp [e]))]
    simp [hb]

theorem lastIndexByteFrom_append (c : UInt8) (pre post : Bytes) (i : Nat) (h : c ∉ post) :
    lastIndexByteFrom c (pre ++ c :: post) i = some (i + pre.length) := by
  induction pre generalizing i with
  | nil =>
    rw [List.nil_append, lastIndexByteFrom, lastIndexByteFrom_none c post _ h]
    simp
  | cons b pre ih =>
    rw [List.cons_append, lastIndexByteFrom, ih]
    simp only [List.length_cons]
    congr 1
    omega

/-- The slice between two positions of a concatenation. -/
theorem goSlice_append (a b c : List α) :
    goSlice (a ++ b ++ c) (a.length : Int) ((a.length : Int) + b.length) = some b := by
  unfold goSlice
  rw [if_pos (by simp only [List.length_append, Nat.cast_add]; omega)]
  have h1 : ((a.length : Int)).toNat = a.length := by omega
  have h2 : ((a.length : Int) + b.length).toNat - a.length = b.length := by omega
  rw [h1, h2, List.append_assoc, List.drop_left, List.take_left]

/-- A byte of a joined string comes from the separator or from an element. -/
theorem mem_stringsJoin (x : UInt8) (sep : Bytes) (fs : List Bytes)
    (h : x ∈ stringsJoin sep fs) : x ∈ sep ∨ ∃ f ∈ fs, x ∈ f := by
  induction fs with
  | nil => simp [stringsJoin] at h
  | cons a rest ih =>
    cases rest with
    | nil => exact Or.inr ⟨a, by simp, by simpa [stringsJoin] using h⟩
    | cons b rest =>
      simp only [stringsJoin, List.mem_append] at h
      rcases h with (h | h) | h
      · exact Or.inr ⟨a, by simp, h⟩
      · exact Or.inl h
      · rcases ih h with h | ⟨f, hf, hx⟩
        · exact Or.inl h
        · exact Or.inr ⟨f, List.mem_cons_of_mem _ hf, hx⟩

/-- Every field that the span loop closes is non-empty. -/
theorem fieldsLoop_ne_nil (rs : List (Nat × Bytes)) (cur : Bytes) :
    ∀ f ∈ fieldsLoop rs cur, f ≠ [] := by
  induction rs generalizing cur with
  | nil =>
    intro f hf
    cases cur with
    | nil => simp [fieldsLoop] at hf
    | cons c cur =>
      simp only [fieldsLoop, List.isEmpty_cons, Bool.false_eq_true, if_false,
        List.mem_singleton] at hf
      simp [hf]
  | cons r rs ih =>
    obtain ⟨c, bs⟩ := r
    intro f hf
    rw [fieldsLoop] at hf
    split_ifs at hf with h1 h2
    · exact ih _ f hf
    · rcases List.mem_cons.mp hf with rfl | hf
      · intro e
        rw [e] at h2
        exact h2 rfl
      · exact ih _ f hf
    · exact ih _ f hf

/-- When the three slices are in range and at least 24 fields follow, `readStat`
returns a record: its `comm` is the middle slice and its `state` the first byte of
the first field. -/
theorem readStat_ok (env : Env) (str pidStr comm tail : Bytes)
    (hfirst : stringsIndex str 40 ≠ -1) (hlast : stringsLastIndex str 41 ≠ -1)
    (hpid : goSliceTo str (stringsIndex str 40) = some pidStr)
    (hcomm : goSlice str (stringsIndex str 40 + 1) (stringsLastIndex str 41) = some comm)
    (htail : goSliceFrom str (stringsLastIndex str 41 + 2) = some tail)
    (h24 : 24 ≤ (stringsFields tail).length) :
    ∃ s, readStat env (.ok str) = .ok s ∧ s.comm = comm ∧
      ∃ f0, (stringsFields tail)[0]? = some f0 ∧ f0[0]? = some s.state := by
  have hne : ∀ f ∈ stringsFields tail, f ≠ [] := fieldsLoop_ne_nil _ _
  have hcond : ¬ (stringsIndex str 40 = -1 ∨ stringsLastIndex str 41 = -1) := by
    simp [hfirst, hlast]
  rw [readStat]
  simp only [hcond, if_false, hpid, hcomm, htail, ofSlice, Outcome.bind_ok]
  generalize stringsFields tail = fields at h24 hne
  have h0 : 0 < (fields[0]).length :=
    List.length_pos.mpr (hne _ (List.getElem_mem _))
  have hnot : ¬ (fields.length < 24) := by omega
  rw [if_neg hnot]
  simp only [goIndex_of_lt fields[0] 0 h0, Outcome.bind_ok,
    goIndex_of_lt fields 0 (by omega), goIndex_of_lt fields 1 (by omega),
    goIndex_of_lt fields 2 (by omega), goIndex_of_lt fields 3 (by omega),
    goIndex_of_lt fields 4 (by omega), goIndex_of_lt fields 5 (by omega),
    goIndex_of_lt fields 6 (by omega), goIndex_of_lt fields 7 (by omega),
    goIndex_of_lt fields 8 (by omega), goIndex_of_lt fields 9 (by omega),
    goIndex_of_lt fields 10 (by omega), goIndex_of_lt fields 11 (by omega),
    goIndex_of_lt fields 12 (by omega), goIndex_of_lt fields 13 (by omega),
    goIndex_of_lt fields 14 (by omega), goIndex_of_lt fields 15 (by omega),
    goIndex_of_lt fields 16 (by omega), goIndex_of_lt fields 17 (by omega),
    goIndex_of_lt fields 18 (by omega), goIndex_of_lt fields 19 (by omega),
    goIndex_of_lt fields 20 (by omega), goIndex_of_lt fields 21 (by omega)]
  refine ⟨_, rfl, rfl, fields[0], ?_, ?_⟩
  · exact List.getElem?_eq_getElem _
  · exact List.getElem?_eq_getElem h0

/-- C6: a status record made of a pid prefix without `(`, the name in parentheses,
one space, and at least 24 non-empty fields free of white space and of `)`, joined
by single spaces, is parsed, and the `comm` of the result is the name, whatever
spaces and parentheses the name holds. -/
theorem readStat_comm_is_name (env : Env) (pidPrefix name : Bytes) (fields : List Bytes)
    (hpre : (40 : UInt8) ∉ pidPrefix) (h24 : 24 ≤ fields.length)
    (hfields : ∀ f ∈ fields, f ≠ [] ∧ spaceFree f = true ∧ (41 : UInt8) ∉ f) :
    ∃ s, readStat env
        (.ok (pidPrefix ++ [40] ++ name ++ [41, 32] ++ stringsJoin [32] fields)) = .ok s ∧
      s.comm = name := by
  have hjoin : stringsFields (stringsJoin [32] fields) = fields :=
    stringsFields_join fields (fun f hf => ⟨(hfields f hf).1, (hfields f hf).2.1⟩)
  have hno41 : (41 : UInt8) ∉ (32 : UInt8) :: stringsJoin [32] fields := by
    intro h
    rcases List.mem_cons.mp h with h | h
    · exact absurd h (by decide)
    · rcases mem_stringsJoin 41 [32] fields h with h | ⟨f, hf, hx⟩
      · exact absurd h (by decide)
      · exact (hfields f hf).2.2 hx
  generalize hstr : pidPrefix ++ [40] ++ name ++ [41, 32] ++ stringsJoin [32] fields = str
  have hfirst : stringsIndex str 40 = (pidPrefix.length : Int) := by
    have e : str = pidPrefix ++ 40 :: (name ++ [41, 32] ++ stringsJoin [32] fields) := by
      rw [← hstr]; simp
    rw [stringsIndex, e, indexByteFrom_append 40 pidPrefix _ 0 hpre]
    simp
  have hlast : stringsLastIndex str 41 = ((pidPrefix ++ [40] ++ name).length : Int) := by
    have e : str = (pidPrefix ++ [40] ++ name) ++ 41 :: (32 :: stringsJoin [32] fields) := by
      rw [← hstr]; simp
    rw [stringsLastIndex, e, lastIndexByteFrom_append 41 _ _ 0 hno41]
    simp
  have hpid : goSliceTo str (stringsIndex str 40) = some pidPrefix := by
    have e : str = [] ++ pidPrefix ++
        ([40] ++ name ++ [41, 32] ++ stringsJoin [32] fields) := by
      rw [← hstr]; simp
    have := goSlice_append ([] : Bytes) pidPrefix
      ([40] ++ name ++ [41, 32] ++ stringsJoin [32] fields)
    rw [← e] at this
    rw [hfirst, goSliceTo]
    simpa using this
  have hcomm : goSlice str (stringsIndex str 40 + 1) (stringsLastIndex str 41) = some name := by
    have e : str = (pidPrefix ++ [40]) ++ name ++ ([41, 32] ++ stringsJoin [32] fields) := by
      rw [← hstr]; simp
    have := goSlice_append (pidPrefix ++ [40]) name ([41, 32] ++ stringsJoin [32] fields)
    rw [← e] at this
    have h1 : stringsIndex str 40 + 1 = ((pidPrefix ++ [40]).length : Int) := by
      rw [hfirst]; simp
    have h2 : stringsLastIndex str 41 =
        ((pidPrefix ++ [40]).length : Int) + (name.length : Int) := by
      rw [hlast]
      simp only [List.length_append, Nat.cast_add, List.length_cons, List.length_nil]
    rw [h1, h2]
    exact this
  have htail : goSliceFrom str (stringsLastIndex str 41 + 2) =
      some (stringsJoin [32] fields) := by
    have e : str = (pidPrefix ++ [40] ++ name ++ [41, 32]) ++ stringsJoin [32] fields ++ [] := by
      rw [← hstr]; simp
    have := goSlice_append (pidPrefix ++ [40] ++ name ++ [41, 32]) (stringsJoin [32] fields) []
    rw [← e] at this
    have hlen : (str.length : Int) =
        ((pidPrefix ++ [40] ++ name ++ [41, 32]).length : Int)
          + ((stringsJoin [32] fields).length : Int) := by
      rw [e]
      simp only [List.length_append, Nat.cast_add, List.length_nil]
      omega
    have h1 : stringsLastIndex str 41 + 2 =
        ((pidPrefix ++ [40] ++ name ++ [41, 32]).length : Int) := by
      rw [hlast]
      simp only [List.length_append, Nat.cast_add, List.length_cons, List.length_nil]
      omega
    rw [goSliceFrom, h1, hlen]
    exact this
  obtain ⟨s, hs, hc, _⟩ := readStat_ok env str pidPrefix name (stringsJoin [32] fields)
    (by rw [hfirst]; omega) (by rw [hlast]; omega) hpid hcomm htail (by rw [hjoin]; exact h24)
  exact ⟨s, hs, hc⟩

/-- Witness of C6: the status record `123 (my (weird) proc) S 1 ...` with 24 fields. -/
theorem readStat_comm_is_name_witness :
    (40 : UInt8) ∉ ascii "123 " ∧ 24 ≤ sampleStatFields.length ∧
    (∀ f ∈ sampleStatFields, f ≠ [] ∧ spaceFree f = true ∧ (41 : UInt8) ∉ f) ∧
    ascii "123 " ++ [40] ++ ascii "my (weird) proc" ++ [41, 32]
        ++ stringsJoin [32] sampleStatFields =
      ascii "123 (my (weird) proc) S 1 123 123 0 -1 4194304 100 0 0 0 5 3 0 0 20 0 1 0 1000 10240000 300 18446744073709551615 1" ∧
    ∃ s, readStat asciiEnv
        (.ok (ascii "123 " ++ [40] ++ ascii "my (weird) proc" ++ [41, 32]
          ++ stringsJoin [32] sampleStatFields)) = .ok s ∧
      s.comm = ascii "my (weird) proc" :=
  ⟨by decide, by decide, by decide, by decide,
    readStat_comm_is_name asciiEnv (ascii "123 ") (ascii "my (weird) proc") sampleStatFields
      (by decide) (by decide) (by decide)⟩

/-! ## The memory listing: claim C12 -/

/-- Reading one more line in front: the last value for a key after a start value. -/
theorem getLast?_filterMap_cons_getD {α : Type} (f : α → Option Nat) (a : α) (l : List α)
    (d : Nat) :
    (((a :: l).filterMap f).getLast?).getD d =
      ((l.filterMap f).getLast?).getD ((f a).getD d) := by
  cases hfa : f a with
  | none => simp [List.filterMap_cons, hfa]
  | some v =>
    simp only [List.filterMap_cons, hfa, Option.getD_some]
    cases l.filterMap f with
    | nil => simp
    | cons b t =>
      rw [List.getLast?_cons, List.getLast?_eq_getLast (b :: t) (by simp)]
      simp

/-- The four fields after `memInfoLine`, each in terms of `lineValue`. -/
theorem memInfoLine_eq (m : MemInfo) (line : Bytes) :
    memInfoLine m line =
      { memTotal := (lineValue (ascii "MemTotal:") line).getD m.memTotal
        memAvailable := (lineValue (ascii "MemAvailable:") line).getD m.memAvailable
        swapTotal := (lineValue (ascii "SwapTotal:") line).getD m.swapTotal
        swapFree := (lineValue (ascii "SwapFree:") line).getD m.swapFree } := by
  unfold memInfoLine lineValue
  split
  · rename_i key value rest heq
    by_cases h1 : key = ascii "MemTotal:"
    · subst h1
      simp [show ascii "MemTotal:" ≠ ascii "MemAvailable:" by decide,
        show ascii "MemTotal:" ≠ ascii "SwapTotal:" by decide,
        show ascii "MemTotal:" ≠ ascii "SwapFree:" by decide]
    · by_cases h2 : key = ascii "MemAvailable:"
      · subst h2
        simp [show ascii "MemAvailable:" ≠ ascii "MemTotal:" by decide,
          show ascii "MemAvailable:" ≠ ascii "SwapTotal:" by decide,
          show ascii "MemAvailable:" ≠ ascii "SwapFree:" by decide]
      · by_cases h3 : key = ascii "SwapTotal:"
        · subst h3
          simp [show ascii "SwapTotal:" ≠ ascii "MemTotal:" by decide,
            show ascii "SwapTotal:" ≠ ascii "MemAvailable:" by decide,
            show ascii "SwapTotal:" ≠ ascii "SwapFree:" by decide]
        · by_cases h4 : key = ascii "SwapFree:"
          · subst h4
            simp [show ascii "SwapFree:" ≠ ascii "MemTotal:" by decide,
              show ascii "SwapFree:" ≠ ascii "MemAvailable:" by decide,
              show ascii "SwapFree:" ≠ ascii "SwapTotal:" by decide]
          · simp [h1, h2, h3, h4]
  · simp

/-- The loop of `getMemInfo` from any start value. -/
theorem foldl_memInfoLine (lines : List Bytes) (m : MemInfo) :
    lines.foldl memInfoLine m =
      { memTotal := ((lines.filterMap (lineValue (ascii "MemTotal:"))).getLast?).getD m.memTotal
        memAvailable :=
          ((lines.filterMap (lineValue (ascii "MemAvailable:"))).getLast?).getD m.memAvailable
        swapTotal :=
          ((lines.filterMap (lineValue (ascii "SwapTotal:"))).getLast?).getD m.swapTotal
        swapFree :=
          ((lines.filterMap (lineValue (ascii "SwapFree:"))).getLast?).getD m.swapFree } := by
  induction lines generalizing m with
  | nil => simp
  | cons line rest ih =>
    rw [List.foldl_cons, ih, memInfoLine_eq]
    simp only [getLast?_filterMap_cons_getD]

theorem lineValue_eq_none (key line : Bytes)
    (h : ∀ v rest, stringsFields line ≠ key :: v :: rest) : lineValue key line = none := by
  unfold lineValue
  split
  · rename_i k v rest heq
    by_cases hk : k = key
    · subst hk
      exact absurd heq (h v rest)
    · simp [hk]
  · rfl

theorem lineValue_eq_some (key line v : Bytes) (rest : List Bytes)
    (h : stringsFields line = key :: v :: rest) :
    lineValue key line = some (parseUint v 64).1 := by
  simp [lineValue, h]

/-- The value of the last line for a key, when no later line is for the key. -/
theorem lastValue_append (key : Bytes) (l1 l2 : List Bytes) (line v : Bytes)
    (rest : List Bytes) (h : stringsFields line = key :: v :: rest)
    (hlater : ∀ l ∈ l2, ∀ v2 rest2, stringsFields l ≠ key :: v2 :: rest2) :
    lastValue key (l1 ++ line :: l2) = (parseUint v 64).1 := by
  have h2 : l2.filterMap (lineValue key) = [] := by
    rw [List.filterMap_eq_nil_iff]
    intro l hl
    exact lineValue_eq_none key l (hlater l hl)
  simp [lastValue, List.filterMap_append, List.filterMap_cons, lineValue_eq_some key line v rest h,
    h2]

/-- The value is 0 when no line is for the key. -/
theorem lastValue_none (key : Bytes) (lines : List Bytes)
    (h : ∀ l ∈ lines, ∀ v rest, stringsFields l ≠ key :: v :: rest) :
    lastValue key lines = 0 := by
  have h2 : lines.filterMap (lineValue key) = [] := by
    rw [List.filterMap_eq_nil_iff]
    intro l hl
    exact lineValue_eq_none key l (h l hl)
  simp [lastValue, h2]

/-- `ParseUint` on a non-empty string of digits that denotes a 64-bit value. -/
theorem parseUint_valid (v : Bytes) (hne : v ≠ []) (hd : ∀ c ∈ v, isDigit c = true)
    (hlt : decimalValue v < 2 ^ 64) : parseUint v 64 = (decimalValue v, none) := by
  have htw : v.takeWhile isDigit = v := List.takeWhile_eq_self_iff.mpr hd
  rw [parseUint_eq, htw, if_neg (by omega), if_neg (by simp [hne])]

/-- What `getMemInfo` returns when the file could be read to its end. -/
theorem getMemInfo_ok (lines : List Bytes) :
    getMemInfo (.ok { lines := lines, err := none }) =
      .ok { memTotal := lastValue (ascii "MemTotal:") lines
            memAvailable := lastValue (ascii "MemAvailable:") lines
            swapTotal := lastValue (ascii "SwapTotal:") lines
            swapFree := lastValue (ascii "SwapFree:") lines } := by
  simp only [getMemInfo, foldl_memInfoLine, lastValue]

/-- C12: when the memory listing could be read to its end, whatever its lines,
`getMemInfo` succeeds, and each of the four fields is the value of the last line
with at least two fields whose first field is the key of the field (the value
`ParseUint` gives for the second field, which is the number the field denotes when
it is a decimal number below 2^64), or 0 when there is no such line; a line with
fewer than two fields or with another first field changes nothing. -/
theorem getMemInfo_last_line_wins :
    (∀ lines : List Bytes,
      getMemInfo (.ok { lines := lines, err := none }) =
        .ok { memTotal := lastValue (ascii "MemTotal:") lines
              memAvailable := lastValue (ascii "MemAvailable:") lines
              swapTotal := lastValue (ascii "SwapTotal:") lines
              swapFree := lastValue (ascii "SwapFree:") lines }) ∧
    (∀ (key : Bytes) (l1 l2 : List Bytes) (line v : Bytes) (rest : List Bytes),
      stringsFields line = key :: v :: rest →
      (∀ l ∈ l2, ∀ v2 rest2, stringsFields l ≠ key :: v2 :: rest2) →
      lastValue key (l1 ++ line :: l2) = (parseUint v 64).1) ∧
    (∀ (key : Bytes) (lines : List Bytes),
      (∀ l ∈ lines, ∀ v rest, stringsFields l ≠ key :: v :: rest) →
      lastValue key lines = 0) ∧
    (∀ v : Bytes, v ≠ [] → (∀ c ∈ v, isDigit c = true) → decimalValue v < 2 ^ 64 →
      (parseUint v 64).1 = decimalValue v) ∧
    (∀ (l1 l2 : List Bytes) (line : Bytes),
      (∀ key ∈ [ascii "MemTotal:", ascii "MemAvailable:", ascii "SwapTotal:", ascii "SwapFree:"],
        ∀ v rest, stringsFields line ≠ key :: v :: rest) →
      getMemInfo (.ok { lines := l1 ++ line :: l2, err := none }) =
        getMemInfo (.ok { lines := l1 ++ l2, err := none })) := by
  refine ⟨getMemInfo_ok, lastValue_append, lastValue_none, ?_, ?_⟩
  · intro v hne hd hlt
    rw [parseUint_valid v hne hd hlt]
  · intro l1 l2 line h
    have hnone : ∀ key ∈ [ascii "MemTotal:", ascii "MemAvailable:", ascii "SwapTotal:",
        ascii "SwapFree:"], lineValue key line = none :=
      fun key hk => lineValue_eq_none key line (h key hk)
    rw [getMemInfo_ok, getMemInfo_ok]
    simp [lastValue, List.filterMap_append, List.filterMap_cons, hnone]

/-- Witness of C12 on the sample listing, which names `MemTotal` twice. -/
theorem getMemInfo_last_line_wins_witness :
    getMemInfo (.ok { lines := sampleMeminfo, err := none }) =
      .ok { memTotal := 8000000, memAvailable := 0, swapTotal := 0, swapFree := 0 } ∧
    lastValue (ascii "MemTotal:") sampleMeminfo = 8000000 ∧
    lastValue (ascii "MemAvailable:") sampleMeminfo = 0 ∧
    (stringsFields (ascii "MemTotal:        8000000 kB") =
        [ascii "MemTotal:", ascii "8000000", ascii "kB"] ∧
      lastValue (ascii "MemTotal:") (sampleMeminfo.take 6 ++ ascii "MemTotal:        8000000 kB" :: [])
        = (parseUint (ascii "8000000") 64).1) ∧
    getMemInfo (.ok { lines := sampleMeminfo.take 2 ++ ascii "Buffers:" :: sampleMeminfo.drop 3,
                      err := none }) =
      getMemInfo (.ok { lines := sampleMeminfo.take 2 ++ sampleMeminfo.drop 3, err := none }) :=
  ⟨by decide, by decide, by decide,
    ⟨by decide, getMemInfo_last_line_wins.2.1 _ _ _ _ _ [ascii "kB"] (by decide) (by simp)⟩,
    getMemInfo_last_line_wins.2.2.2.2 _ _ _ (by
      have hf : stringsFields (ascii "Buffers:") = [ascii "Buffers:"] := by decide
      intro key _ v rest
      rw [hf]
      simp)⟩

/-! ## The process list: claims C16, C17, C19 and C20 -/

/-- The loop of `getProcesses` when no read panics: it appends the snapshots of
the names whose read succeeds, in order. -/
theorem getProcessesLoop_eq (info : Int → Outcome Process) (hread : ∀ pid, info pid ≠ .panic)
    (names : List Bytes) (processes : List Process) :
    getProcessesLoop info names processes =
      .ok (processes ++ names.filterMap (snapshotOf info)) := by
  induction names generalizing processes with
  | nil => simp [getProcessesLoop]
  | cons name rest ih =>
    rw [getProcessesLoop, List.filterMap_cons]
    rcases hat : atoi name with ⟨pid, _ | e⟩
    · simp only []
      cases hinfo : info pid with
      | ok proc =>
        have hs : snapshotOf info name = some proc := by simp [snapshotOf, hat, hinfo]
        simp [hs, ih]
      | error e =>
        have hs : snapshotOf info name = none := by simp [snapshotOf, hat, hinfo]
        simp [hs, ih]
      | panic => exact absurd hinfo (hread pid)
    · have hs : snapshotOf info name = none := by simp [snapshotOf, hat]
      simp [hs, ih]

/-- C16: for every list of directory names and every result of the per-pid read
that is a snapshot or an error, `getProcesses` returns exactly the snapshots of
the names whose read succeeded, in the order of the list; a name whose read fails
(or that is no number) contributes nothing and changes nothing else. -/
theorem getProcesses_skips_failed_reads :
    (∀ (info : Int → Outcome Process) (names : List Bytes),
      (∀ pid, info pid ≠ .panic) →
      getProcessesLoop info names [] = .ok (names.filterMap (snapshotOf info))) ∧
    (∀ (env : Env) (files : Int → ProcFiles) (names : List Bytes),
      (∀ pid, getProcessInfo env (files pid) pid ≠ .panic) →
      getProcesses env (.ok names) files =
        .ok (names.filterMap (snapshotOf fun pid => getProcessInfo env (files pid) pid))) ∧
    (∀ (info : Int → Outcome Process) (l1 l2 : List Bytes) (name : Bytes),
      (∀ pid, info pid ≠ .panic) → snapshotOf info name = none →
      getProcessesLoop info (l1 ++ name :: l2) [] = getProcessesLoop info (l1 ++ l2) []) ∧
    (∀ (info : Int → Outcome Process) (name : Bytes) (pid : Int) (e : GoError),
      atoi name = (pid, none) → info pid = .error e → snapshotOf info name = none) := by
  refine ⟨fun info names h => ?_, fun env files names h => ?_, fun info l1 l2 name h hn => ?_,
    fun info name pid e ha hi => ?_⟩
  · simpa using getProcessesLoop_eq info h names []
  · simpa [getProcesses] using getProcessesLoop_eq _ h names []
  · rw [getProcessesLoop_eq info h, getProcessesLoop_eq info h]
    simp [List.filterMap_append, List.filterMap_cons, hn]
  · simp [snapshotOf, ha, hi]

theorem sampleProc_no_panic (pid : Int) :
    getProcessInfo asciiEnv (sampleProc pid) pid ≠ .panic := by
  by_cases h : pid = 30
  · subst h
    decide
  · simp [sampleProc, h, getProcessInfo, readIntFile, Outcome.bind]

/-- Witness of C16: of the names `1abc`, `31` and `30` only pid 30 can be read. -/
theorem getProcesses_skips_failed_reads_witness :
    (∀ pid, getProcessInfo asciiEnv (sampleProc pid) pid ≠ .panic) ∧
    getProcesses asciiEnv (.ok [ascii "1abc", ascii "31", ascii "30"]) sampleProc =
      .ok ([ascii "1abc", ascii "31", ascii "30"].filterMap
        (snapshotOf fun pid => getProcessInfo asciiEnv (sampleProc pid) pid)) ∧
    [ascii "1abc", ascii "31", ascii "30"].filterMap
        (snapshotOf fun pid => getProcessInfo asciiEnv (sampleProc pid) pid) =
      [{ pid := 30, oomScore := 500, rss := 1228800, comm := ascii "a", cmdline := ascii "a",
         uid := 1000, isZombie := false }] :=
  ⟨sampleProc_no_panic,
    getProcesses_skips_failed_reads.2.1 asciiEnv sampleProc _ sampleProc_no_panic, by decide⟩

/-- C17: a tick with `dryRun` set chooses the victim and the signal that the tick
without `dryRun` chooses and calls `killProcess` not at all; a tick without `dryRun`
that chooses a victim calls `killProcess` once, with the pid of the victim and the
signal chosen. -/
theorem tick_dryRun (env : Env) (cfg : Config) (needTerm needKill : Bool)
    (processes : Except GoError (List Process)) :
    tick env { cfg with dryRun := true } needTerm needKill processes =
      (tick env { cfg with dryRun := false } needTerm needKill processes).bind
        (fun r => .ok { r with kills := [] }) ∧
    (∀ r, tick env { cfg with dryRun := true } needTerm needKill processes = .ok r →
      r.kills = []) ∧
    (∀ r v, tick env { cfg with dryRun := false } needTerm needKill processes = .ok r →
      r.victim = some v → ∃ sig, r.signal = some sig ∧ r.kills = [(v.pid, sig)]) ∧
    (∀ r, tick env { cfg with dryRun := false } needTerm needKill processes = .ok r →
      r.victim = none → r.kills = []) := by
  unfold tick
  cases hflag : (needTerm || needKill)
  · simp only [Outcome.bind, Bool.false_eq_true, if_false, Outcome.ok.injEq, true_and]
    exact ⟨fun r hr => by rw [← hr], fun r v hr hv => by rw [← hr] at hv; simp at hv,
      fun r hr _ => by rw [← hr]⟩
  · cases processes with
    | error e =>
      simp only [Outcome.bind, if_true, Outcome.ok.injEq, true_and]
      exact ⟨fun r hr => by rw [← hr], fun r v hr hv => by rw [← hr] at hv; simp at hv,
        fun r hr _ => by rw [← hr]⟩
    | ok ps =>
      simp only [if_true]
      by_cases hlen : (filterProcesses env ps cfg.protectProcesses).length = 0
      · simp only [hlen, if_true, Outcome.bind, Outcome.ok.injEq, true_and]
        exact ⟨fun r hr => by rw [← hr], fun r v hr hv => by rw [← hr] at hv; simp at hv,
          fun r hr _ => by rw [← hr]⟩
      · simp only [hlen, if_false]
        cases selectVictim env (filterProcesses env ps cfg.protectProcesses) cfg.sortByRSS with
        | ok v =>
          simp only [Outcome.bind, Bool.not_true, Bool.not_false, Bool.false_eq_true, if_false,
            if_true, Outcome.ok.injEq, true_and]
          refine ⟨fun r hr => by rw [← hr], fun r w hr hw => ?_, fun r hr hn => ?_⟩
          · rw [← hr] at hw ⊢
            simp only [Option.some.injEq] at hw
            subst hw
            exact ⟨_, rfl, rfl⟩
          · rw [← hr] at hn
            simp at hn
        | error e => simp [Outcome.bind]
        | panic => simp [Outcome.bind]

/-- Witness of C17 on the sample processes under kill pressure. -/
theorem tick_dryRun_witness :
    tick asciiEnv { sampleConfig with dryRun := true } true true (.ok sampleProcesses) =
      .ok { victim := some sampleB, signal := some .SIGKILL, kills := [] } ∧
    tick asciiEnv { sampleConfig with dryRun := false } true true (.ok sampleProcesses) =
      .ok { victim := some sampleB, signal := some .SIGKILL, kills := [(31, .SIGKILL)] } ∧
    (∃ sig, (some Signal.SIGKILL) = some sig ∧ [((31 : Int), Signal.SIGKILL)] = [(sampleB.pid, sig)]) :=
  ⟨by decide, by decide,
    (tick_dryRun asciiEnv sampleConfig true true (.ok sampleProcesses)).2.2.1
      { victim := some sampleB, signal := some .SIGKILL, kills := [(31, .SIGKILL)] } sampleB
      (by decide) rfl⟩

/-- The loop of `filterProcesses` appends the processes that pass the three tests. -/
theorem filterProcessesLoop_eq (env : Env) (protectedMap : List Bytes)
    (processes filtered : List Process) :
    filterProcessesLoop env protectedMap processes filtered =
      filtered ++ processes.filter fun p =>
        !p.isZombie && !(p.pid = 1 || p.pid = env.getpid)
          && !(protectedMap.contains (env.toLower p.comm)) := by
  induction processes generalizing filtered with
  | nil => simp [filterProcessesLoop]
  | cons p rest ih =>
    rw [filterProcessesLoop]
    by_cases hz : p.isZombie = true
    · rw [if_pos hz, ih, List.filter_cons_of_neg (by simp [hz])]
    · rw [if_neg hz]
      by_cases hp : p.pid = 1 ∨ p.pid = env.getpid
      · rw [if_pos hp, ih, List.filter_cons_of_neg]
        rcases hp with hp | hp <;> simp [hp]
      · rw [if_neg hp]
        by_cases hc : protectedMap.contains (env.toLower p.comm) = true
        · have hc2 : env.toLower p.comm ∈ protectedMap := by simpa using hc
          rw [if_pos hc, ih, List.filter_cons_of_neg (by simp [hc2])]
        · rw [if_neg hc, ih, List.filter_cons_of_pos, List.append_assoc]
          · rfl
          · have hz2 : p.isZombie = false := by simpa using hz
            have hc2 : env.toLower p.comm ∉ protectedMap := by simpa using hc
            have hp1 : p.pid ≠ 1 := fun e => hp (Or.inl e)
            have hp2 : p.pid ≠ env.getpid := fun e => hp (Or.inr e)
            simp [hz2, hc2, hp1, hp2]

/-- The three tests of `filterProcesses` together are eligibility. -/
theorem eligible_iff (env : Env) (protectedNames : List Bytes) (p : Process) :
    (!p.isZombie && !(p.pid = 1 || p.pid = env.getpid)
      && !((protectedNames.map env.toLower).contains (env.toLower p.comm))) = true ↔
      Eligible env protectedNames p := by
  simp only [Eligible, Bool.and_eq_true, Bool.not_eq_true', Bool.or_eq_false_iff,
    decide_eq_false_iff_not, List.contains_eq_any_beq, List.any_eq_false, beq_iff_eq,
    List.mem_map, forall_exists_index, and_imp, forall_apply_eq_imp_iff₂, and_assoc]

/-- C19: `filterProcesses` returns the eligible processes of its input, each as
often as the input holds it and in the order of the input, and filtering once more
changes nothing; the loop of the source computes the same list. -/
theorem filterProcesses_eligible_sublist (env : Env) (processes : List Process)
    (protectedNames : List Bytes) :
    filterProcesses env processes protectedNames =
      processes.filter (fun p => decide (Eligible env protectedNames p)) ∧
    filterProcesses env processes protectedNames =
      filterProcessesLoop env (protectedNames.map env.toLower) processes [] ∧
    (filterProcesses env processes protectedNames).Sublist processes ∧
    (∀ p, p ∈ filterProcesses env processes protectedNames ↔
      p ∈ processes ∧ Eligible env protectedNames p) ∧
    (∀ p, Eligible env protectedNames p →
      (filterProcesses env processes protectedNames).count p = processes.count p) ∧
    filterProcesses env (filterProcesses env processes protectedNames) protectedNames =
      filterProcesses env processes protectedNames := by
  have hfilter : ∀ ps : List Process, filterProcesses env ps protectedNames =
      ps.filter (fun p => decide (Eligible env protectedNames p)) := by
    intro ps
    unfold filterProcesses
    apply List.filter_congr
    intro p _
    rw [Bool.eq_iff_iff, eligible_iff]
    simp
  refine ⟨hfilter processes, ?_, ?_, ?_, ?_, ?_⟩
  · rw [filterProcessesLoop_eq]
    rfl
  · rw [hfilter]
    exact List.filter_sublist _
  · intro p
    rw [hfilter]
    simp [List.mem_filter]
  · intro p hp
    rw [hfilter, List.count_filter]
    simpa using hp
  · rw [hfilter, hfilter, List.filter_filter]
    simp

/-- Witness of C19 on the sample processes. -/
theorem filterProcesses_eligible_sublist_witness :
    filterProcesses asciiEnv sampleProcesses [ascii "SSHD"] = [sampleA, sampleB] ∧
    (filterProcesses asciiEnv sampleProcesses [ascii "SSHD"]).Sublist sampleProcesses ∧
    (Eligible asciiEnv [ascii "SSHD"] sampleA ∧
      (filterProcesses asciiEnv sampleProcesses [ascii "SSHD"]).count sampleA =
        sampleProcesses.count sampleA) ∧
    filterProcesses asciiEnv (filterProcesses asciiEnv sampleProcesses [ascii "SSHD"])
        [ascii "SSHD"] = filterProcesses asciiEnv sampleProcesses [ascii "SSHD"] :=
  ⟨by decide,
    (filterProcesses_eligible_sublist asciiEnv sampleProcesses [ascii "SSHD"]).2.2.1,
    ⟨by decide,
      (filterProcesses_eligible_sublist asciiEnv sampleProcesses [ascii "SSHD"]).2.2.2.2.1
        sampleA (by decide)⟩,
    (filterProcesses_eligible_sublist asciiEnv sampleProcesses [ascii "SSHD"]).2.2.2.2.2⟩

/-- C20: `readStatm` returns its error exactly on a record with fewer than 7
fields; with 7 fields or more it succeeds, and `rss` is the number the second field
denotes when that field is a decimal number below 2^64.  With fewer than 7 fields
`getProcessInfo` returns an error, no `Process`, and the pid contributes nothing to
the list of `getProcesses`. -/
theorem readStatm_fails_iff_short :
    (∀ content : Bytes, (stringsFields content).length < 7 →
      readStatm (.ok content) = .error .invalidStatm) ∧
    (∀ content : Bytes, 7 ≤ (stringsFields content).length →
      ∃ s, readStatm (.ok content) = .ok s ∧
        ∀ f, (stringsFields content)[1]? = some f → (∀ c ∈ f, isDigit c = true) →
          decimalValue f < 2 ^ 64 → s.rss = decimalValue f) ∧
    (∀ (env : Env) (files : ProcFiles) (pid : Int) (content : Bytes),
      files.statm = .ok content → (stringsFields content).length < 7 →
      ∃ e, getProcessInfo env files pid = .error e) ∧
    (∀ (env : Env) (files : Int → ProcFiles) (name : Bytes) (pid : Int) (content : Bytes),
      atoi name = (pid, none) → (files pid).statm = .ok content →
      (stringsFields content).length < 7 →
      snapshotOf (fun pid => getProcessInfo env (files pid) pid) name = none) := by
  have hshort : ∀ content : Bytes, (stringsFields content).length < 7 →
      readStatm (.ok content) = .error .invalidStatm := by
    intro content h
    simp [readStatm, h]
  have hinfo : ∀ (env : Env) (files : ProcFiles) (pid : Int) (content : Bytes),
      files.statm = .ok content → (stringsFields content).length < 7 →
      ∃ e, getProcessInfo env files pid = .error e := by
    intro env files pid content hfile h
    unfold getProcessInfo
    cases hoom : readIntFile env files.oom_score with
    | ok n =>
      rw [hfile, hshort content h]
      exact ⟨_, rfl⟩
    | error e => exact ⟨e, rfl⟩
    | panic =>
      unfold readIntFile at hoom
      split at hoom
      · simp at hoom
      · split at hoom <;> simp at hoom
  refine ⟨hshort, fun content h7 => ?_, hinfo, ?_⟩
  · obtain ⟨s, hs, hfields⟩ := readStatm_ok content h7
    refine ⟨s, hs, fun f hf hd hlt => ?_⟩
    have hne : f ≠ [] := fieldsLoop_ne_nil _ _ f (List.mem_iff_getElem?.mpr ⟨1, hf⟩)
    have h1 : (statmFields s)[1]? = some (parseUint f 64).1 := by
      rw [hfields, List.getElem?_map, List.getElem?_take]
      simp [hf]
    rw [parseUint_valid f hne hd hlt] at h1
    simpa [statmFields] using h1
  · intro env files name pid content hat hfile h
    obtain ⟨e, he⟩ := hinfo env (files pid) pid content hfile h
    simp [snapshotOf, hat, he]

/-- Witness of C20: a record with six fields and a record with seven. -/
theorem readStatm_fails_iff_short_witness :
    ((stringsFields (ascii "2500 300 120 10 0 500\n")).length < 7 ∧
      readStatm (.ok (ascii "2500 300 120 10 0 500\n")) = .error .invalidStatm) ∧
    (7 ≤ (stringsFields (ascii "2500 300 120 10 0 500 0\n")).length ∧
      ∃ s, readStatm (.ok (ascii "2500 300 120 10 0 500 0\n")) = .ok s ∧
        ∀ f, (stringsFields (ascii "2500 300 120 10 0 500 0\n"))[1]? = some f →
          (∀ c ∈ f, isDigit c = true) → decimalValue f < 2 ^ 64 → s.rss = decimalValue f) ∧
    decimalValue (ascii "300") = 300 ∧
    (∃ e, getProcessInfo asciiEnv
      { sampleFiles with statm := .ok (ascii "2500 300 120 10 0 500\n") } 30 = .error e) :=
  ⟨⟨by decide, readStatm_fails_iff_short.1 _ (by decide)⟩,
    ⟨by decide, readStatm_fails_iff_short.2.1 _ (by decide)⟩, by decide,
    readStatm_fails_iff_short.2.2.1 asciiEnv _ 30 (ascii "2500 300 120 10 0 500\n") rfl
      (by decide)⟩

/-! ## The state of a process: claim C18 -/

/-- A leading ASCII white-space byte does not change the fields. -/
theorem stringsFields_cons_space (w : UInt8) (tail : Bytes) (hw : isAsciiSpace w = true) :
    stringsFields (w :: tail) = stringsFields tail := by
  have hw2 : (9 ≤ w.toNat ∧ w.toNat ≤ 13) ∨ w.toNat = 32 := by
    simpa [isAsciiSpace] using hw
  have hlt : w.toNat < 0x80 := by omega
  have hsp : isSpace w.toNat = true := by
    rcases hw2 with ⟨h1, h2⟩ | h
    · simp [isSpace, h1, h2]
    · simp [isSpace, h]
  unfold stringsFields
  rw [rangeString_cons (w :: tail) (by simp), decodeRune_ascii w tail hlt]
  simp only [List.drop_succ_cons, List.drop_zero, fieldsLoop, hsp, if_true, List.isEmpty_nil]

/-- The first occurrence of a byte of `pre` lies within `pre`. -/
theorem indexByteFrom_mem (c : UInt8) (pre rest : Bytes) (k : Nat) (h : c ∈ pre) :
    ∃ j, k ≤ j ∧ j < k + pre.length ∧ indexByteFrom c (pre ++ rest) k = some j := by
  induction pre generalizing k with
  | nil => simp at h
  | cons b pre ih =>
    rw [List.cons_append, indexByteFrom]
    by_cases hb : b = c
    · exact ⟨k, le_refl _, by simp, by simp [hb]⟩
    · have hc : c ∈ pre := by
        rcases List.mem_cons.mp h with e | e
        · exact absurd e.symm hb
        · exact e
      obtain ⟨j, h1, h2, h3⟩ := ih (k + 1) hc
      exact ⟨j, by omega, by simp only [List.length_cons]; omega, by simp [hb, h3]⟩

theorem goSlice_isSome {α : Type} (s : List α) (lo hi : Int)
    (h : 0 ≤ lo ∧ lo ≤ hi ∧ hi ≤ (s.length : Int)) : ∃ r, goSlice s lo hi = some r := by
  simp [goSlice, h]

/-- The `isZombie` of a snapshot is the test of the state for `Z`. -/
theorem getProcessInfo_isZombie (env : Env) (files : ProcFiles) (pid : Int) (p : Process)
    (h : getProcessInfo env files pid = .ok p) :
    ∃ st, readStat env files.stat = .ok st ∧ (p.isZombie = true ↔ st.state = 90) := by
  unfold getProcessInfo at h
  obtain ⟨oom, _, h⟩ := Outcome.bind_eq_ok h
  obtain ⟨st, _, h⟩ := Outcome.bind_eq_ok h
  obtain ⟨comm, _, h⟩ := Outcome.bind_eq_ok h
  obtain ⟨cmdline, _, h⟩ := Outcome.bind_eq_ok h
  obtain ⟨stat, hstat, h⟩ := Outcome.bind_eq_ok h
  refine ⟨stat, hstat, ?_⟩
  cases h
  simp

/-- C18, the claim fails: `zombieRecord24` has a parenthesis pair and 24 fields
after the `)`, the first of them `Z`, and `readStat` returns the error for too few
fields; `zombieRecord25` has 25 fields after the `)`, the first of them `Z`, and
`readStat` reports the state `1`, so the zombie is not seen. -/
theorem readStat_state_counterexample :
    (stringsIndex zombieRecord24 40 = 2 ∧ stringsLastIndex zombieRecord24 41 = 10 ∧
      (stringsFields (zombieRecord24.drop 11)).length = 24 ∧
      (stringsFields (zombieRecord24.drop 11)).head? = some (ascii "Z") ∧
      readStat asciiEnv (.ok zombieRecord24) = .error .invalidStatFields) ∧
    (stringsIndex zombieRecord25 40 = 2 ∧ stringsLastIndex zombieRecord25 41 = 10 ∧
      (stringsFields (zombieRecord25.drop 11)).length = 25 ∧
      (stringsFields (zombieRecord25.drop 11)).head? = some (ascii "Z") ∧
      (readStat asciiEnv (.ok zombieRecord25)).bind (fun s => .ok s.state) = .ok 49 ∧
      (getProcessInfo asciiEnv { sampleFiles with stat := .ok zombieRecord25 } 7).bind
        (fun p => .ok p.isZombie) = .ok false) := by
  decide

/-- C18 as amended: when the status record has a `(` before its last `)`, the byte
right after the last `)` is an ASCII white-space byte (space, tab, line feed,
vertical tab, form feed, carriage return), and at least 24 fields follow, `readStat`
succeeds and reports as state the first byte of the first of those fields, so the
snapshot is a zombie exactly when that byte is `Z`. -/
theorem readStat_state_after_space (env : Env) (pre tail : Bytes) (w : UInt8)
    (hopen : (40 : UInt8) ∈ pre) (hw : isAsciiSpace w = true) (hclose : (41 : UInt8) ∉ tail)
    (h24 : 24 ≤ (stringsFields (w :: tail)).length) :
    ∃ s f0 c, readStat env (.ok (pre ++ 41 :: w :: tail)) = .ok s ∧
      (stringsFields (w :: tail))[0]? = some f0 ∧ f0[0]? = some c ∧ s.state = c ∧
      ∀ (files : ProcFiles) (pid : Int) (p : Process),
        files.stat = .ok (pre ++ 41 :: w :: tail) → getProcessInfo env files pid = .ok p →
        (p.isZombie = true ↔ c = 90) := by
  have hfields : stringsFields (w :: tail) = stringsFields tail :=
    stringsFields_cons_space w tail hw
  have hw41 : w ≠ 41 := by
    intro e
    rw [e] at hw
    exact absurd hw (by decide)
  have hno41 : (41 : UInt8) ∉ w :: tail := by
    intro h
    rcases List.mem_cons.mp h with h | h
    · exact hw41 h.symm
    · exact hclose h
  generalize hstr : pre ++ 41 :: w :: tail = str
  obtain ⟨j, _, hj, hidx⟩ := indexByteFrom_mem 40 pre (41 :: w :: tail) 0 hopen
  have hfirst : stringsIndex str 40 = (j : Int) := by
    rw [stringsIndex, ← hstr, hidx]
  have hlast : stringsLastIndex str 41 = (pre.length : Int) := by
    rw [stringsLastIndex, ← hstr, lastIndexByteFrom_append 41 pre (w :: tail) 0 hno41]
    simp
  have hlen : (str.length : Int) = (pre.length : Int) + 2 + (tail.length : Int) := by
    rw [← hstr]
    simp only [List.length_append, List.length_cons, Nat.cast_add, Nat.cast_one]
    omega
  obtain ⟨pidStr, hpid⟩ := goSlice_isSome str 0 (stringsIndex str 40)
    (by rw [hfirst]; omega)
  obtain ⟨comm, hcomm⟩ := goSlice_isSome str (stringsIndex str 40 + 1) (stringsLastIndex str 41)
    (by rw [hfirst, hlast]; omega)
  have htail : goSliceFrom str (stringsLastIndex str 41 + 2) = some tail := by
    have e : str = (pre ++ [41, w]) ++ tail ++ [] := by
      rw [← hstr]; simp
    have := goSlice_append (pre ++ [41, w]) tail []
    rw [← e] at this
    have h1 : stringsLastIndex str 41 + 2 = ((pre ++ [41, w]).length : Int) := by
      rw [hlast]
      simp only [List.length_append, Nat.cast_add, List.length_cons, List.length_nil]
      omega
    have h2 : (str.length : Int) = ((pre ++ [41, w]).length : Int) + (tail.length : Int) := by
      rw [hlen]
      simp only [List.length_append, Nat.cast_add, List.length_cons, List.length_nil]
      omega
    rw [goSliceFrom, h1, h2]
    exact this
  obtain ⟨s, hs, _, f0, hf0, hstate⟩ := readStat_ok env str pidStr comm tail
    (by rw [hfirst]; omega) (by rw [hlast]; omega) hpid hcomm htail (by rw [← hfields]; exact h24)
  refine ⟨s, f0, s.state, hs, by rw [hfields]; exact hf0, hstate, rfl, ?_⟩
  intro files pid p hfile hp
  obtain ⟨st, hst, hz⟩ := getProcessInfo_isZombie env files pid p hp
  rw [hfile, hs] at hst
  cases hst
  exact hz

/-- Witness of C18 as amended: the status record of `sampleFiles`, with a tab after
the `)`. -/
theorem readStat_state_after_space_witness :
    ((40 : UInt8) ∈ ascii "30 (a" ∧ isAsciiSpace 9 = true ∧
      (41 : UInt8) ∉ stringsJoin [32] sampleStatFields ∧
      24 ≤ (stringsFields (9 :: stringsJoin [32] sampleStatFields)).length) ∧
    ∃ s f0 c, readStat asciiEnv (.ok (ascii "30 (a" ++ 41 :: 9 :: stringsJoin [32] sampleStatFields))
        = .ok s ∧
      (stringsFields (9 :: stringsJoin [32] sampleStatFields))[0]? = some f0 ∧
      f0[0]? = some c ∧ s.state = c ∧
      ∀ (files : ProcFiles) (pid : Int) (p : Process),
        files.stat = .ok (ascii "30 (a" ++ 41 :: 9 :: stringsJoin [32] sampleStatFields) →
        getProcessInfo asciiEnv files pid = .ok p → (p.isZombie = true ↔ c = 90) :=
  ⟨⟨by decide, by decide, by decide, by decide⟩,
    readStat_state_after_space asciiEnv (ascii "30 (a") (stringsJoin [32] sampleStatFields) 9
      (by decide) (by decide) (by decide) (by decide)⟩

/-! ## Rounding to `float64` -/

theorem roundNearestEven_intCast (n : ℤ) : roundNearestEven (n : ℚ) = n := by
  simp [roundNearestEven]

theorem floor_le_roundNearestEven (x : ℚ) : ⌊x⌋ ≤ roundNearestEven x := by
  unfold roundNearestEven
  split_ifs <;> omega

theorem roundNearestEven_le_floor_add_one (x : ℚ) : roundNearestEven x ≤ ⌊x⌋ + 1 := by
  unfold roundNearestEven
  split_ifs <;> omega

/-- Rounding to the nearest integer is monotone. -/
theorem roundNearestEven_mono {x y : ℚ} (h : x ≤ y) :
    roundNearestEven x ≤ roundNearestEven y := by
  have hfl : ⌊x⌋ ≤ ⌊y⌋ := Int.floor_mono h
  rcases lt_or_eq_of_le hfl with hlt | heq
  · calc roundNearestEven x ≤ ⌊x⌋ + 1 := roundNearestEven_le_floor_add_one x
      _ ≤ ⌊y⌋ := hlt
      _ ≤ roundNearestEven y := floor_le_roundNearestEven y
  · have hfrac : x - ⌊x⌋ ≤ y - ⌊y⌋ := by
      rw [heq]
      linarith
    unfold roundNearestEven
    rw [heq] at hfrac ⊢
    split_ifs <;> first | omega | linarith

theorem two_pow_mul_zpow (n : ℕ) (e : ℤ) :
    (((2 : ℤ) ^ n : ℤ) : ℚ) * (2 : ℚ) ^ e = (2 : ℚ) ^ (e + n) := by
  rw [Int.cast_pow, Int.cast_ofNat, ← zpow_natCast, ← zpow_add₀ (by norm_num), add_comm]

theorem float64Ulp_pos (x : ℚ) : 0 < float64Ulp x := by
  unfold float64Ulp
  positivity

/-- A positive number is below the power of two that ends its binade. -/
theorem lt_two_zpow_binade (x : ℚ) :
    x < (2 : ℚ) ^ (max (Int.log 2 x) (-1022) + 1) := by
  have h1 : x < ((2 : ℕ) : ℚ) ^ (Int.log 2 x + 1) := Int.lt_zpow_succ_log_self (by norm_num) x
  have h2 : ((2 : ℕ) : ℚ) ^ (Int.log 2 x + 1) ≤ (2 : ℚ) ^ (max (Int.log 2 x) (-1022) + 1) := by
    rw [Nat.cast_ofNat]
    have := le_max_left (Int.log 2 x) (-1022)
    exact zpow_le_zpow_right₀ (by norm_num) (by omega)
  exact lt_of_lt_of_le h1 h2

/-- Rounding does not pass the power of two that ends the binade. -/
theorem roundPos_le_two_zpow (x : ℚ) :
    roundPos x ≤ (2 : ℚ) ^ (max (Int.log 2 x) (-1022) + 1) := by
  have hu := float64Ulp_pos x
  have hq : x / float64Ulp x ≤ (((2 : ℤ) ^ (53 : ℕ) : ℤ) : ℚ) := by
    rw [div_le_iff₀ hu]
    have : (((2 : ℤ) ^ (53 : ℕ) : ℤ) : ℚ) * float64Ulp x =
        (2 : ℚ) ^ (max (Int.log 2 x) (-1022) + 1) := by
      unfold float64Ulp
      rw [two_pow_mul_zpow]
      congr 1
      push_cast
      omega
    rw [this]
    exact le_of_lt (lt_two_zpow_binade x)
  have hr := roundNearestEven_mono hq
  rw [roundNearestEven_intCast] at hr
  have hr2 : ((roundNearestEven (x / float64Ulp x) : ℤ) : ℚ) ≤ (((2 : ℤ) ^ (53 : ℕ) : ℤ) : ℚ) :=
    Int.cast_le.mpr hr
  calc roundPos x = (roundNearestEven (x / float64Ulp x) : ℚ) * float64Ulp x := rfl
    _ ≤ (((2 : ℤ) ^ (53 : ℕ) : ℤ) : ℚ) * float64Ulp x :=
        mul_le_mul_of_nonneg_right hr2 (le_of_lt hu)
    _ = (2 : ℚ) ^ (max (Int.log 2 x) (-1022) + 1) := by
      unfold float64Ulp
      rw [two_pow_mul_zpow]
      congr 1
      push_cast
      omega

/-- Rounding of a normal number does not pass the power of two that starts the
binade. -/
theorem two_zpow_le_roundPos {x : ℚ} (hx : 0 < x) (hn : -1022 ≤ Int.log 2 x) :
    (2 : ℚ) ^ (Int.log 2 x) ≤ roundPos x := by
  have hu := float64Ulp_pos x
  have hmax : max (Int.log 2 x) (-1022) = Int.log 2 x := max_eq_left hn
  have hpow : (((2 : ℤ) ^ (52 : ℕ) : ℤ) : ℚ) * float64Ulp x = (2 : ℚ) ^ (Int.log 2 x) := by
    unfold float64Ulp
    rw [hmax, two_pow_mul_zpow]
    congr 1
    push_cast
    omega
  have hq : (((2 : ℤ) ^ (52 : ℕ) : ℤ) : ℚ) ≤ x / float64Ulp x := by
    rw [le_div_iff₀ hu, hpow]
    have := Int.zpow_log_le_self (R := ℚ) (b := 2) (by norm_num) hx
    simpa using this
  have hr := roundNearestEven_mono hq
  rw [roundNearestEven_intCast] at hr
  have hr2 : (((2 : ℤ) ^ (52 : ℕ) : ℤ) : ℚ) ≤ ((roundNearestEven (x / float64Ulp x) : ℤ) : ℚ) :=
    Int.cast_le.mpr hr
  calc (2 : ℚ) ^ (Int.log 2 x) = (((2 : ℤ) ^ (52 : ℕ) : ℤ) : ℚ) * float64Ulp x := hpow.symm
    _ ≤ (roundNearestEven (x / float64Ulp x) : ℚ) * float64Ulp x :=
        mul_le_mul_of_nonneg_right hr2 (le_of_lt hu)
    _ = roundPos x := rfl

theorem roundPos_nonneg {x : ℚ} (hx : 0 < x) : 0 ≤ roundPos x := by
  have hu := float64Ulp_pos x
  have hq : ((0 : ℤ) : ℚ) ≤ x / float64Ulp x := by
    simpa using le_of_lt (div_pos hx hu)
  have hr := roundNearestEven_mono hq
  rw [roundNearestEven_intCast] at hr
  exact mul_nonneg (Int.cast_nonneg.mpr hr) (le_of_lt hu)

/-- Rounding to `float64` is monotone on the positive numbers. -/
theorem roundPos_mono {x y : ℚ} (hx : 0 < x) (h : x ≤ y) : roundPos x ≤ roundPos y := by
  have hy : 0 < y := lt_of_lt_of_le hx h
  have hlog : Int.log 2 x ≤ Int.log 2 y := Int.log_mono_right hx h
  rcases lt_or_eq_of_le (max_le_max hlog (le_refl (-1022 : ℤ))) with hlt | heq
  · have hn : -1022 ≤ Int.log 2 y := by
      by_contra hcon
      have h1 : max (Int.log 2 y) (-1022) = -1022 := max_eq_right (by omega)
      rw [h1] at hlt
      have := le_max_right (Int.log 2 x) (-1022)
      omega
    have hmax : max (Int.log 2 y) (-1022) = Int.log 2 y := max_eq_left hn
    rw [hmax] at hlt
    calc roundPos x ≤ (2 : ℚ) ^ (max (Int.log 2 x) (-1022) + 1) := roundPos_le_two_zpow x
      _ ≤ (2 : ℚ) ^ (Int.log 2 y) := zpow_le_zpow_right₀ (by norm_num) (by omega)
      _ ≤ roundPos y := two_zpow_le_roundPos hy hn
  · have hu : float64Ulp x = float64Ulp y := by
      unfold float64Ulp
      rw [heq]
    have hup := float64Ulp_pos y
    unfold roundPos
    rw [hu]
    have hq : x / float64Ulp y ≤ y / float64Ulp y := div_le_div_of_nonneg_right h (le_of_lt hup)
    exact mul_le_mul_of_nonneg_right (Int.cast_le.mpr (roundNearestEven_mono hq)) (le_of_lt hup)

/-- A number with a mantissa below 2^53 and an exponent of at least -1074 is a
`float64`: rounding leaves it as it is. -/
theorem roundPos_exact (m : ℕ) (k : ℤ) (hm : 0 < m) (hm53 : m < 2 ^ 53) (hk : -1074 ≤ k) :
    roundPos ((m : ℚ) * (2 : ℚ) ^ k) = (m : ℚ) * (2 : ℚ) ^ k := by
  have hx : (0 : ℚ) < (m : ℚ) * (2 : ℚ) ^ k := by positivity
  have hlog : Int.log 2 ((m : ℚ) * (2 : ℚ) ^ k) < k + 53 := by
    rw [← Int.lt_zpow_iff_log_lt (by norm_num) hx]
    have h2 : ((2 : ℕ) : ℚ) ^ (k + 53) = (2 : ℚ) ^ k * (2 : ℚ) ^ (53 : ℕ) := by
      rw [← zpow_natCast, ← zpow_add₀ (by norm_num)]
      norm_num
    rw [h2, mul_comm]
    have h3 : (m : ℚ) < (2 : ℚ) ^ (53 : ℕ) := by exact_mod_cast hm53
    exact mul_lt_mul_of_pos_left h3 (by positivity)
  have hj : 0 ≤ k - (max (Int.log 2 ((m : ℚ) * (2 : ℚ) ^ k)) (-1022) - 52) := by
    rcases max_cases (Int.log 2 ((m : ℚ) * (2 : ℚ) ^ k)) (-1022 : ℤ) with ⟨h, _⟩ | ⟨h, _⟩ <;>
      rw [h] <;> omega
  obtain ⟨j, hjeq⟩ := Int.eq_ofNat_of_zero_le hj
  have hquot : (m : ℚ) * (2 : ℚ) ^ k / float64Ulp ((m : ℚ) * (2 : ℚ) ^ k) =
      (((m : ℤ) * (2 : ℤ) ^ j : ℤ) : ℚ) := by
    unfold float64Ulp
    rw [mul_div_assoc, ← zpow_sub₀ (by norm_num), hjeq]
    push_cast
    rw [zpow_natCast]
  unfold roundPos
  rw [hquot, roundNearestEven_intCast]
  unfold float64Ulp
  push_cast
  rw [mul_assoc, ← zpow_natCast, ← zpow_add₀ (by norm_num), ← hjeq]
  congr 2
  omega

/-- Rounding leaves a `float64` value as it is: mantissa below 2^53, exponent from
-1074 to 971. -/
theorem roundFloat64_exact (m : ℕ) (k : ℤ) (hm53 : m < 2 ^ 53) (hk : -1074 ≤ k)
    (hk2 : k ≤ 971) : roundFloat64 ((m : ℚ) * (2 : ℚ) ^ k) = .finite ((m : ℚ) * (2 : ℚ) ^ k) := by
  rcases Nat.eq_zero_or_pos m with h0 | hm
  · subst h0
    simp [roundFloat64]
  · have hx : (0 : ℚ) < (m : ℚ) * (2 : ℚ) ^ k := by positivity
    have hlt : (m : ℚ) * (2 : ℚ) ^ k < (2 : ℚ) ^ (1024 : ℕ) := by
      have h1 : (m : ℚ) < (2 : ℚ) ^ (53 : ℕ) := by exact_mod_cast hm53
      have h2 : (2 : ℚ) ^ k ≤ (2 : ℚ) ^ (971 : ℤ) := zpow_le_zpow_right₀ (by norm_num) hk2
      have h3 : (2 : ℚ) ^ (53 : ℕ) * (2 : ℚ) ^ (971 : ℤ) = (2 : ℚ) ^ (1024 : ℕ) := by
        rw [← zpow_natCast, ← zpow_natCast, ← zpow_add₀ (by norm_num)]
        norm_num
      calc (m : ℚ) * (2 : ℚ) ^ k < (2 : ℚ) ^ (53 : ℕ) * (2 : ℚ) ^ k :=
            mul_lt_mul_of_pos_right h1 (by positivity)
        _ ≤ (2 : ℚ) ^ (53 : ℕ) * (2 : ℚ) ^ (971 : ℤ) :=
            mul_le_mul_of_nonneg_left h2 (by positivity)
        _ = (2 : ℚ) ^ (1024 : ℕ) := h3
    unfold roundFloat64
    rw [if_neg (ne_of_gt hx), if_pos hx, roundPos_exact m k hm hm53 hk, if_neg (not_le.mpr hlt)]

/-- A natural number below 2^53 converts to `float64` without rounding. -/
theorem roundFloat64_natCast (n : ℕ) (h : n < 2 ^ 53) : roundFloat64 (n : ℚ) = .finite n := by
  have := roundFloat64_exact n 0 h (by norm_num) (by norm_num)
  simpa using this

/-- Rounding does not pass a `float64` value above: a number from 0 to the value
`m * 2^k` rounds to a finite value in the same range. -/
theorem roundFloat64_le (x : ℚ) (m : ℕ) (k : ℤ) (hx : 0 ≤ x) (hm53 : m < 2 ^ 53)
    (hk : -1074 ≤ k) (hk2 : k ≤ 971) (hxr : x ≤ (m : ℚ) * (2 : ℚ) ^ k) :
    ∃ v, roundFloat64 x = .finite v ∧ 0 ≤ v ∧ v ≤ (m : ℚ) * (2 : ℚ) ^ k := by
  rcases eq_or_lt_of_le hx with h0 | hpos
  · refine ⟨0, by simp [roundFloat64, ← h0], le_refl _, ?_⟩
    rw [h0]
    exact hxr
  · have hr : (0 : ℚ) < (m : ℚ) * (2 : ℚ) ^ k := lt_of_lt_of_le hpos hxr
    have hm : 0 < m := by
      rcases Nat.eq_zero_or_pos m with h0 | h
      · rw [h0] at hr
        simp at hr
      · exact h
    have hle : roundPos x ≤ (m : ℚ) * (2 : ℚ) ^ k := by
      have := roundPos_mono hpos hxr
      rwa [roundPos_exact m k hm hm53 hk] at this
    have hfin := roundFloat64_exact m k hm53 hk hk2
    have hlt : ¬ ((2 : ℚ) ^ (1024 : ℕ) ≤ (m : ℚ) * (2 : ℚ) ^ k) := by
      intro hcon
      unfold roundFloat64 at hfin
      rw [if_neg (ne_of_gt hr), if_pos hr, roundPos_exact m k hm hm53 hk, if_pos hcon] at hfin
      exact absurd hfin (by simp)
    refine ⟨roundPos x, ?_, roundPos_nonneg hpos, hle⟩
    unfold roundFloat64
    rw [if_neg (ne_of_gt hpos), if_pos hpos, if_neg (fun hcon => hlt (le_trans hcon hle))]

/-- A number of at least 1 rounds to at least 1. -/
theorem one_le_roundPos {x : ℚ} (hx : 1 ≤ x) : 1 ≤ roundPos x := by
  have hpos : (0 : ℚ) < x := lt_of_lt_of_le one_pos hx
  have := roundPos_mono one_pos hx
  have h1 := roundPos_exact 1 0 (by norm_num) (by norm_num) (by norm_num)
  simp only [Nat.cast_one, zpow_zero, mul_one] at h1
  rwa [h1] at this

/-- The conversion of a `uint64`: a finite value from 0 to 2^64, at least 1 for a
positive number. -/
theorem ofUint64_finite (n : ℕ) (h : n < 2 ^ 64) :
    ∃ v, Float64.ofUint64 n = .finite v ∧ 0 ≤ v ∧ ((0 < n) → 1 ≤ v) ∧
      ((0 < n) → v = roundPos n) ∧ (n = 0 → v = 0) := by
  rcases Nat.eq_zero_or_pos n with h0 | hpos
  · subst h0
    exact ⟨0, by simp [Float64.ofUint64, roundFloat64], le_refl _, by simp, by simp, by simp⟩
  · have hx : (0 : ℚ) < (n : ℚ) := by exact_mod_cast hpos
    have h1 : (1 : ℚ) ≤ (n : ℚ) := by exact_mod_cast hpos
    have hle : (n : ℚ) ≤ ((1 : ℕ) : ℚ) * (2 : ℚ) ^ (64 : ℤ) := by
      have h2 : (n : ℚ) ≤ (2 : ℚ) ^ (64 : ℕ) := by exact_mod_cast le_of_lt h
      have h64 : (2 : ℚ) ^ (64 : ℤ) = (2 : ℚ) ^ (64 : ℕ) := by norm_cast
      rw [Nat.cast_one, one_mul, h64]
      exact h2
    obtain ⟨v, hv, hv0, _⟩ := roundFloat64_le (n : ℚ) 1 64 (le_of_lt hx) (by norm_num)
      (by norm_num) (by norm_num) hle
    have hveq : v = roundPos n := by
      unfold roundFloat64 at hv
      rw [if_neg (ne_of_gt hx), if_pos hx] at hv
      split_ifs at hv
      simp only [Float64.finite.injEq] at hv
      exact hv.symm
    exact ⟨v, hv, hv0, fun _ => by rw [hveq]; exact one_le_roundPos h1, fun _ => hveq,
      fun e => absurd e (by omega)⟩

/-! ## Memory pressure: claims C11, C13, C14 and C15 -/

/-- Zero available memory is 0 percent, whatever the positive total. -/
theorem memAvailPercent_zero (memInfo : MemInfo) (ha : memInfo.memAvailable = 0)
    (ht : 0 < memInfo.memTotal) : memAvailPercent memInfo = .finite 0 := by
  have hx : (0 : ℚ) < (memInfo.memTotal : ℚ) := by exact_mod_cast ht
  have h1 : (1 : ℚ) ≤ (memInfo.memTotal : ℚ) := by exact_mod_cast ht
  have hr : (1 : ℚ) ≤ roundPos memInfo.memTotal := one_le_roundPos h1
  have hzero : Float64.ofUint64 0 = .finite 0 := by simp [Float64.ofUint64, roundFloat64]
  unfold memAvailPercent
  rw [ha, hzero]
  unfold Float64.ofUint64 roundFloat64
  rw [if_neg (ne_of_gt hx), if_pos hx]
  split_ifs
  · simp [Float64.div, Float64.mul, roundFloat64]
  · have hne : roundPos memInfo.memTotal ≠ 0 := by linarith
    simp [Float64.div, Float64.mul, roundFloat64, hne]

/-- The values of `ParseUint` for 64 bits are below 2^64. -/
theorem parseUint_lt (v : Bytes) : (parseUint v 64).1 < 2 ^ 64 := by
  rw [parseUint_eq]
  split_ifs with h1 h2
  · norm_num
  · norm_num
  · have htw : v.takeWhile isDigit = v := by
      have hlen : ¬ ((v.takeWhile isDigit).length < v.length) := fun h => h2 (Or.inr h)
      exact (List.takeWhile_prefix isDigit).eq_of_length
        (le_antisymm (List.takeWhile_prefix isDigit).length_le (not_lt.mp hlen))
    rw [htw] at h1
    exact not_le.mp h1

theorem of_lineValue_eq_none (key line : Bytes) (h : lineValue key line = none) :
    ∀ v rest, stringsFields line ≠ key :: v :: rest := by
  intro v rest heq
  simp [lineValue, heq] at h

/-- The sample listing has no line for `MemAvailable`. -/
theorem sampleMeminfo_no_memAvailable :
    ∀ l ∈ sampleMeminfo, ∀ v rest, stringsFields l ≠ ascii "MemAvailable:" :: v :: rest := by
  have h : ∀ l ∈ sampleMeminfo, lineValue (ascii "MemAvailable:") l = none := by decide
  exact fun l hl => of_lineValue_eq_none _ l (h l hl)

/-- C11, the claim fails: the sample listing has a `MemTotal` line with a positive
value and no `MemAvailable` line, the thresholds 10 and 5 are not negative, and the
memory part of the check raises both `needTerm` and `needKill`. -/
theorem missing_memAvailable_counterexample :
    getMemInfo (.ok { lines := sampleMeminfo, err := none }) =
      .ok { memTotal := 8000000, memAvailable := 0, swapTotal := 0, swapFree := 0 } ∧
    (∀ l ∈ sampleMeminfo, ∀ v rest, stringsFields l ≠ ascii "MemAvailable:" :: v :: rest) ∧
    (memAvailPercent { memTotal := 8000000, memAvailable := 0, swapTotal := 0, swapFree := 0 }).le
      sampleConfig.memTermPercent = true ∧
    (memAvailPercent { memTotal := 8000000, memAvailable := 0, swapTotal := 0, swapFree := 0 }).le
      sampleConfig.memKillPercent = true ∧
    needTerm sampleConfig
      { memTotal := 8000000, memAvailable := 0, swapTotal := 0, swapFree := 0 } = true ∧
    needKill sampleConfig
      { memTotal := 8000000, memAvailable := 0, swapTotal := 0, swapFree := 0 } = true := by
  have hp : memAvailPercent
      { memTotal := 8000000, memAvailable := 0, swapTotal := 0, swapFree := 0 } = .finite 0 :=
    memAvailPercent_zero _ rfl (by norm_num)
  refine ⟨by decide, sampleMeminfo_no_memAvailable, ?_, ?_, ?_, ?_⟩
  · rw [hp]
    simp [Float64.le, sampleConfig]
  · rw [hp]
    simp [Float64.le, sampleConfig]
  · rw [needTerm, hp]
    simp [Float64.le, sampleConfig]
  · rw [needKill, hp]
    simp [Float64.le, sampleConfig]

/-- C11 as amended: when the memory listing has a `MemTotal` line with a positive
value and no `MemAvailable` line, `getMemInfo` returns a sample with `memAvailable`
0, the available memory is 0 percent, and for thresholds that are not negative the
memory part of the check raises both `needTerm` and `needKill`. -/
theorem missing_memAvailable_is_pressure (lines : List Bytes) (cfg : Config)
    (htotal : 0 < lastValue (ascii "MemTotal:") lines)
    (hnone : ∀ l ∈ lines, ∀ v rest, stringsFields l ≠ ascii "MemAvailable:" :: v :: rest)
    (hterm : (Float64.finite 0).le cfg.memTermPercent = true)
    (hkill : (Float64.finite 0).le cfg.memKillPercent = true) :
    ∃ memInfo, getMemInfo (.ok { lines := lines, err := none }) = .ok memInfo ∧
      memInfo.memAvailable = 0 ∧ memAvailPercent memInfo = .finite 0 ∧
      (memAvailPercent memInfo).le cfg.memTermPercent = true ∧
      (memAvailPercent memInfo).le cfg.memKillPercent = true ∧
      needTerm cfg memInfo = true ∧ needKill cfg memInfo = true := by
  have hp := memAvailPercent_zero
    { memTotal := lastValue (ascii "MemTotal:") lines
      memAvailable := lastValue (ascii "MemAvailable:") lines
      swapTotal := lastValue (ascii "SwapTotal:") lines
      swapFree := lastValue (ascii "SwapFree:") lines }
    (lastValue_none _ lines hnone) htotal
  refine ⟨_, getMemInfo_ok lines, lastValue_none _ lines hnone, hp, ?_, ?_, ?_, ?_⟩
  · rw [hp]; exact hterm
  · rw [hp]; exact hkill
  · rw [needTerm, hp, hterm]; rfl
  · rw [needKill, hp, hkill]; rfl

/-- Witness of C11 as amended on the sample listing. -/
theorem missing_memAvailable_is_pressure_witness :
    (0 < lastValue (ascii "MemTotal:") sampleMeminfo ∧
      (∀ l ∈ sampleMeminfo, ∀ v rest, stringsFields l ≠ ascii "MemAvailable:" :: v :: rest) ∧
      (Float64.finite 0).le sampleConfig.memTermPercent = true ∧
      (Float64.finite 0).le sampleConfig.memKillPercent = true) ∧
    ∃ memInfo, getMemInfo (.ok { lines := sampleMeminfo, err := none }) = .ok memInfo ∧
      memInfo.memAvailable = 0 ∧ memAvailPercent memInfo = .finite 0 ∧
      (memAvailPercent memInfo).le sampleConfig.memTermPercent = true ∧
      (memAvailPercent memInfo).le sampleConfig.memKillPercent = true ∧
      needTerm sampleConfig memInfo = true ∧ needKill sampleConfig memInfo = true :=
  ⟨⟨by decide, sampleMeminfo_no_memAvailable, by simp [Float64.le, sampleConfig],
      by simp [Float64.le, sampleConfig]⟩,
    missing_memAvailable_is_pressure sampleMeminfo sampleConfig (by decide)
      sampleMeminfo_no_memAvailable
      (by simp [Float64.le, sampleConfig]) (by simp [Float64.le, sampleConfig])⟩

/-- C13: with `swapTotal` 0 the free swap is 100 percent and the two flags are the
memory comparisons alone, whatever the swap thresholds and `ignoreSwap`. -/
theorem no_swap_no_swap_pressure (cfg : Config) (memInfo : MemInfo)
    (hswap : memInfo.swapTotal = 0) :
    swapFreePercent memInfo = .finite 100 ∧
    needTerm cfg memInfo = (memAvailPercent memInfo).le cfg.memTermPercent ∧
    needKill cfg memInfo = (memAvailPercent memInfo).le cfg.memKillPercent := by
  simp [swapFreePercent, needTerm, needKill, hswap]

/-- Witness of C13: a sample without swap under thresholds that any swap value
would meet. -/
theorem no_swap_no_swap_pressure_witness :
    sampleMemInfo.swapTotal = 0 ∧
    swapFreePercent sampleMemInfo = .finite 100 ∧
    needTerm { sampleConfig with swapTermPercent := .posInf, swapKillPercent := .posInf }
        sampleMemInfo =
      (memAvailPercent sampleMemInfo).le sampleConfig.memTermPercent ∧
    needKill { sampleConfig with swapTermPercent := .posInf, swapKillPercent := .posInf }
        sampleMemInfo =
      (memAvailPercent sampleMemInfo).le sampleConfig.memKillPercent :=
  ⟨rfl, no_swap_no_swap_pressure
    { sampleConfig with swapTermPercent := .posInf, swapKillPercent := .posInf }
    sampleMemInfo rfl⟩

/-- Rounding to the nearest integer moves a number by at most one half. -/
theorem abs_roundNearestEven_sub_le (y : ℚ) : |(roundNearestEven y : ℚ) - y| ≤ 1 / 2 := by
  have h1 := Int.floor_le y
  have h2 := Int.lt_floor_add_one y
  unfold roundNearestEven
  rw [abs_le]
  split_ifs <;> push_cast <;> constructor <;> linarith

/-- Rounding to `float64` moves a normal number (2^-1022 or more) by at most the
fraction 2^-53 of it. -/
theorem abs_roundPos_sub_le {x : ℚ} (hx : (2 : ℚ) ^ (-1022 : ℤ) ≤ x) :
    |roundPos x - x| ≤ x * (1 / 2 ^ 53) := by
  have hpos : (0 : ℚ) < x := lt_of_lt_of_le (by positivity) hx
  have hu := float64Ulp_pos x
  have hn : -1022 ≤ Int.log 2 x := by
    rw [← Int.zpow_le_iff_le_log (by norm_num) hpos]
    simpa using hx
  have hulp : float64Ulp x ≤ x * (1 / 2 ^ 52) := by
    have h1 : float64Ulp x = (2 : ℚ) ^ (Int.log 2 x) * (1 / 2 ^ 52) := by
      unfold float64Ulp
      rw [max_eq_left hn, zpow_sub₀ (by norm_num)]
      norm_cast
      simp [div_eq_mul_inv]
    rw [h1]
    have h2 : (2 : ℚ) ^ (Int.log 2 x) ≤ x := by
      have := Int.zpow_log_le_self (R := ℚ) (b := 2) (by norm_num) hpos
      simpa using this
    exact mul_le_mul_of_nonneg_right h2 (by positivity)
  have hxy : x = x / float64Ulp x * float64Ulp x := by
    field_simp
  have hdiff : roundPos x - x =
      ((roundNearestEven (x / float64Ulp x) : ℚ) - x / float64Ulp x) * float64Ulp x := by
    unfold roundPos
    rw [sub_mul, ← hxy]
  rw [hdiff, abs_mul, abs_of_pos hu]
  have hr := abs_roundNearestEven_sub_le (x / float64Ulp x)
  calc |(roundNearestEven (x / float64Ulp x) : ℚ) - x / float64Ulp x| * float64Ulp x
      ≤ 1 / 2 * float64Ulp x := mul_le_mul_of_nonneg_right hr (le_of_lt hu)
    _ ≤ 1 / 2 * (x * (1 / 2 ^ 52)) := mul_le_mul_of_nonneg_left hulp (by norm_num)
    _ = x * (1 / 2 ^ 53) := by ring

/-- A positive number up to a `float64` value rounds to a finite `float64`. -/
theorem roundFloat64_pos (x : ℚ) (m : ℕ) (k : ℤ) (hx : 0 < x) (hm53 : m < 2 ^ 53)
    (hk : -1074 ≤ k) (hk2 : k ≤ 971) (hxr : x ≤ (m : ℚ) * (2 : ℚ) ^ k) :
    roundFloat64 x = .finite (roundPos x) ∧ roundPos x ≤ (m : ℚ) * (2 : ℚ) ^ k := by
  obtain ⟨v, hv, _, hle⟩ := roundFloat64_le x m k (le_of_lt hx) hm53 hk hk2 hxr
  have hveq : v = roundPos x := by
    unfold roundFloat64 at hv
    rw [if_neg (ne_of_gt hx), if_pos hx] at hv
    split_ifs at hv
    simp only [Float64.finite.injEq] at hv
    exact hv.symm
  rw [hveq] at hv hle
  exact ⟨hv, hle⟩

/-- Two-sided form of the rounding error. -/
theorem roundPos_bounds {x : ℚ} (hx : (2 : ℚ) ^ (-1022 : ℤ) ≤ x) :
    x * (1 - 1 / 2 ^ 53) ≤ roundPos x ∧ roundPos x ≤ x * (1 + 1 / 2 ^ 53) := by
  have h := abs_le.mp (abs_roundPos_sub_le hx)
  constructor <;> linarith [h.1, h.2]

/-- Three roundings in a row, each of relative error at most 2^-53, and a division
by a rounded denominator, give a relative error of at most 2^-50. -/
theorem three_roundings_error {A T a t q p : ℚ} (hA0 : 0 < A) (hT0 : 0 < T) (ht0 : 0 < t)
    (hab : A * (1 - 1 / 2 ^ 53) ≤ a ∧ a ≤ A * (1 + 1 / 2 ^ 53))
    (htb : T * (1 - 1 / 2 ^ 53) ≤ t ∧ t ≤ T * (1 + 1 / 2 ^ 53))
    (hqb : a / t * (1 - 1 / 2 ^ 53) ≤ q ∧ q ≤ a / t * (1 + 1 / 2 ^ 53))
    (hpb : q * 100 * (1 - 1 / 2 ^ 53) ≤ p ∧ p ≤ q * 100 * (1 + 1 / 2 ^ 53)) :
    |p - A / T * 100| ≤ A / T * 100 * (1 / 2 ^ 50) := by
  have hk2 : ((1 + (1 : ℚ) / 2 ^ 53) / (1 - 1 / 2 ^ 53)) * ((1 + 1 / 2 ^ 53) * (1 + 1 / 2 ^ 53))
      ≤ 1 + 1 / 2 ^ 50 := by norm_num
  have hk1 : 1 - (1 : ℚ) / 2 ^ 50 ≤
      ((1 - (1 : ℚ) / 2 ^ 53) / (1 + 1 / 2 ^ 53)) * ((1 - 1 / 2 ^ 53) * (1 - 1 / 2 ^ 53)) := by
    norm_num
  have hc1 : (0 : ℚ) < 1 - 1 / 2 ^ 53 := by norm_num
  have hc2 : (0 : ℚ) < 1 + 1 / 2 ^ 53 := by norm_num
  generalize (1 : ℚ) - 1 / 2 ^ 53 = c1 at *
  generalize (1 : ℚ) + 1 / 2 ^ 53 = c2 at *
  have ha0 : 0 < a := lt_of_lt_of_le (mul_pos hA0 hc1) hab.1
  have hrup : a / t ≤ A / T * (c2 / c1) := by
    have h1 : a / t ≤ (A * c2) / (T * c1) :=
      div_le_div₀ (le_of_lt (mul_pos hA0 hc2)) hab.2 (mul_pos hT0 hc1) htb.1
    rw [mul_div_mul_comm] at h1
    exact h1
  have hrlo : A / T * (c1 / c2) ≤ a / t := by
    have h1 : (A * c1) / (T * c2) ≤ a / t :=
      div_le_div₀ (le_of_lt ha0) hab.1 ht0 htb.2
    rw [mul_div_mul_comm] at h1
    exact h1
  have hR0 : (0 : ℚ) ≤ A / T := le_of_lt (div_pos hA0 hT0)
  generalize A / T = R at hrup hrlo hR0 ⊢
  generalize a / t = r at hrup hrlo hqb
  have h100 : (0 : ℚ) ≤ 100 := by norm_num
  have hup : p ≤ R * 100 * (1 + 1 / 2 ^ 50) := by
    calc p ≤ q * 100 * c2 := hpb.2
      _ ≤ r * c2 * 100 * c2 :=
          mul_le_mul_of_nonneg_right (mul_le_mul_of_nonneg_right hqb.2 h100) (le_of_lt hc2)
      _ ≤ R * (c2 / c1) * c2 * 100 * c2 :=
          mul_le_mul_of_nonneg_right (mul_le_mul_of_nonneg_right
            (mul_le_mul_of_nonneg_right hrup (le_of_lt hc2)) h100) (le_of_lt hc2)
      _ = R * 100 * ((c2 / c1) * (c2 * c2)) := by ring
      _ ≤ R * 100 * (1 + 1 / 2 ^ 50) :=
          mul_le_mul_of_nonneg_left hk2 (mul_nonneg hR0 h100)
  have hlo : R * 100 * (1 - 1 / 2 ^ 50) ≤ p := by
    calc R * 100 * (1 - 1 / 2 ^ 50)
        ≤ R * 100 * ((c1 / c2) * (c1 * c1)) :=
          mul_le_mul_of_nonneg_left hk1 (mul_nonneg hR0 h100)
      _ = R * (c1 / c2) * c1 * 100 * c1 := by ring
      _ ≤ r * c1 * 100 * c1 :=
          mul_le_mul_of_nonneg_right (mul_le_mul_of_nonneg_right
            (mul_le_mul_of_nonneg_right hrlo (le_of_lt hc1)) h100) (le_of_lt hc1)
      _ ≤ q * 100 * c1 :=
          mul_le_mul_of_nonneg_right (mul_le_mul_of_nonneg_right hqb.1 h100) (le_of_lt hc1)
      _ ≤ p := hpb.1
  rw [abs_le]
  constructor <;> linarith

/-- C15 as amended: for a sample of unsigned 64-bit values with `memTotal > 0`
the percentage `memAvailPercent` is a finite `float64` that is not negative and
differs from the exact `memAvailable / memTotal * 100` by at most the fraction 2^-50
of it (three roundings); it is at most 100 when `memAvailable` is at most
`memTotal`. -/
theorem memAvailPercent_in_range (memInfo : MemInfo) (ht : 0 < memInfo.memTotal)
    (ht64 : memInfo.memTotal < 2 ^ 64) (ha64 : memInfo.memAvailable < 2 ^ 64) :
    ∃ p : ℚ, memAvailPercent memInfo = .finite p ∧ 0 ≤ p ∧
      |p - (memInfo.memAvailable : ℚ) / (memInfo.memTotal : ℚ) * 100| ≤
        (memInfo.memAvailable : ℚ) / (memInfo.memTotal : ℚ) * 100 * (1 / 2 ^ 50) ∧
      (memInfo.memAvailable ≤ memInfo.memTotal → p ≤ 100) := by
  rcases Nat.eq_zero_or_pos memInfo.memAvailable with ha0 | hapos
  · refine ⟨0, memAvailPercent_zero memInfo ha0 ht, le_refl _, ?_, fun _ => by norm_num⟩
    rw [ha0]
    simp
  · -- the two conversions
    have hA1 : (1 : ℚ) ≤ (memInfo.memAvailable : ℚ) := by exact_mod_cast hapos
    have hT1 : (1 : ℚ) ≤ (memInfo.memTotal : ℚ) := by exact_mod_cast ht
    have hA0 : (0 : ℚ) < (memInfo.memAvailable : ℚ) := by linarith
    have hT0 : (0 : ℚ) < (memInfo.memTotal : ℚ) := by linarith
    have h64 : ((1 : ℕ) : ℚ) * (2 : ℚ) ^ (64 : ℤ) = (2 : ℚ) ^ (64 : ℕ) := by
      rw [Nat.cast_one, one_mul]
      norm_cast
    have hA64 : (memInfo.memAvailable : ℚ) ≤ ((1 : ℕ) : ℚ) * (2 : ℚ) ^ (64 : ℤ) := by
      rw [h64]
      exact_mod_cast le_of_lt ha64
    have hT64 : (memInfo.memTotal : ℚ) ≤ ((1 : ℕ) : ℚ) * (2 : ℚ) ^ (64 : ℤ) := by
      rw [h64]
      exact_mod_cast le_of_lt ht64
    obtain ⟨hfa, hale⟩ := roundFloat64_pos _ 1 64 hA0 (by norm_num) (by norm_num) (by norm_num) hA64
    obtain ⟨hft, htle⟩ := roundFloat64_pos _ 1 64 hT0 (by norm_num) (by norm_num) (by norm_num) hT64
    rw [h64] at hale htle
    have ha1 : (1 : ℚ) ≤ roundPos memInfo.memAvailable := one_le_roundPos hA1
    have ht1 : (1 : ℚ) ≤ roundPos memInfo.memTotal := one_le_roundPos hT1
    generalize hadef : roundPos (memInfo.memAvailable : ℚ) = a at *
    generalize htdef : roundPos (memInfo.memTotal : ℚ) = t at *
    have ha0 : (0 : ℚ) < a := by linarith
    have ht0 : (0 : ℚ) < t := by linarith
    -- the quotient
    have hr0 : (0 : ℚ) < a / t := div_pos ha0 ht0
    have hrle : a / t ≤ ((1 : ℕ) : ℚ) * (2 : ℚ) ^ (64 : ℤ) := by
      rw [h64, div_le_iff₀ ht0]
      calc a ≤ (2 : ℚ) ^ (64 : ℕ) := hale
        _ = (2 : ℚ) ^ (64 : ℕ) * 1 := by ring
        _ ≤ (2 : ℚ) ^ (64 : ℕ) * t := mul_le_mul_of_nonneg_left ht1 (by positivity)
    have hrge : (1 : ℚ) / 2 ^ 64 ≤ a / t := by
      rw [le_div_iff₀ ht0]
      calc (1 : ℚ) / 2 ^ 64 * t ≤ (1 : ℚ) / 2 ^ 64 * 2 ^ (64 : ℕ) :=
            mul_le_mul_of_nonneg_left htle (by positivity)
        _ = 1 := by norm_num
        _ ≤ a := ha1
    obtain ⟨hfq, hqle⟩ := roundFloat64_pos _ 1 64 hr0 (by norm_num) (by norm_num) (by norm_num) hrle
    rw [h64] at hqle
    have hnormal : ∀ x : ℚ, (1 : ℚ) / 2 ^ 65 ≤ x → (2 : ℚ) ^ (-1022 : ℤ) ≤ x := by
      intro x hx
      have : (2 : ℚ) ^ (-1022 : ℤ) ≤ (1 : ℚ) / 2 ^ 65 := by
        rw [show (1 : ℚ) / 2 ^ 65 = (2 : ℚ) ^ (-65 : ℤ) by norm_num]
        exact zpow_le_zpow_right₀ (by norm_num) (by norm_num)
      exact le_trans this hx
    have hqb := roundPos_bounds (hnormal (a / t) (by linarith [show (1 : ℚ) / 2 ^ 65 ≤ 1 / 2 ^ 64 by norm_num]))
    generalize hqdef : roundPos (a / t) = q at *
    have hq0 : (0 : ℚ) < q := by
      have : (0 : ℚ) < a / t * (1 - 1 / 2 ^ 53) := mul_pos hr0 (by norm_num)
      linarith [hqb.1]
    have hqge : (1 : ℚ) / 2 ^ 65 ≤ q * 100 := by
      have h1 : (1 : ℚ) / 2 ^ 64 * (1 - 1 / 2 ^ 53) ≤ a / t * (1 - 1 / 2 ^ 53) :=
        mul_le_mul_of_nonneg_right hrge (by norm_num)
      have h2 : (1 : ℚ) / 2 ^ 65 ≤ (1 : ℚ) / 2 ^ 64 * (1 - 1 / 2 ^ 53) * 100 := by norm_num
      nlinarith [hqb.1]
    -- the product
    have hsle : q * 100 ≤ ((1 : ℕ) : ℚ) * (2 : ℚ) ^ (71 : ℤ) := by
      have : ((1 : ℕ) : ℚ) * (2 : ℚ) ^ (71 : ℤ) = (2 : ℚ) ^ (64 : ℕ) * 128 := by
        rw [Nat.cast_one, one_mul]
        norm_num
      rw [this]
      nlinarith [hqle]
    obtain ⟨hfp, _⟩ := roundFloat64_pos _ 1 71 (by positivity) (by norm_num) (by norm_num)
      (by norm_num) hsle
    have hpb := roundPos_bounds (hnormal (q * 100) hqge)
    have hab := roundPos_bounds (hnormal (memInfo.memAvailable : ℚ) (by linarith [show (1 : ℚ) / 2 ^ 65 ≤ 1 by norm_num]))
    have htb := roundPos_bounds (hnormal (memInfo.memTotal : ℚ) (by linarith [show (1 : ℚ) / 2 ^ 65 ≤ 1 by norm_num]))
    rw [hadef] at hab
    rw [htdef] at htb
    generalize hpdef : roundPos (q * 100) = p at *
    have hval : memAvailPercent memInfo = .finite p := by
      unfold memAvailPercent Float64.ofUint64
      rw [hfa, hft]
      simp only [Float64.div, if_neg (ne_of_gt ht0), hfq, Float64.mul, hfp]
    -- the range
    have hrange : memInfo.memAvailable ≤ memInfo.memTotal → p ≤ 100 := by
      intro hle
      have hle2 : (memInfo.memAvailable : ℚ) ≤ (memInfo.memTotal : ℚ) := by exact_mod_cast hle
      have hat : a ≤ t := by
        rw [← hadef, ← htdef]
        exact roundPos_mono hA0 hle2
      have hr1 : a / t ≤ 1 := (div_le_one ht0).mpr hat
      have hq1 : q ≤ 1 := by
        have := roundPos_mono hr0 hr1
        have h1 := roundPos_exact 1 0 (by norm_num) (by norm_num) (by norm_num)
        simp only [Nat.cast_one, zpow_zero, mul_one] at h1
        rw [h1, hqdef] at this
        exact this
      have hs100 : q * 100 ≤ 100 := by linarith
      have := roundPos_mono (by positivity : (0 : ℚ) < q * 100) hs100
      have h100 := roundPos_exact 100 0 (by norm_num) (by norm_num) (by norm_num)
      simp only [zpow_zero, mul_one] at h100
      rw [hpdef] at this
      have h100' : roundPos (100 : ℚ) = 100 := by exact_mod_cast h100
      rw [h100'] at this
      exact this
    have hp0 : (0 : ℚ) ≤ p := by
      have : (0 : ℚ) ≤ q * 100 * (1 - 1 / 2 ^ 53) := by
        apply mul_nonneg (by positivity) (by norm_num)
      linarith [hpb.1]
    have herr := three_roundings_error hA0 hT0 ht0 hab htb hqb hpb
    refine ⟨p, hval, hp0, ?_, hrange⟩
    exact herr

/-- The percentage when the two conversions, the quotient and the product are
`float64` values: no rounding takes place. -/
theorem memAvailPercent_exact (memInfo : MemInfo) (m n : ℕ) (k l : ℤ)
    (hA : memInfo.memAvailable < 2 ^ 53) (hT : memInfo.memTotal < 2 ^ 53)
    (hT0 : 0 < memInfo.memTotal)
    (hm : m < 2 ^ 53) (hk : -1074 ≤ k) (hk2 : k ≤ 971)
    (hq : (memInfo.memAvailable : ℚ) / (memInfo.memTotal : ℚ) = (m : ℚ) * (2 : ℚ) ^ k)
    (hn : n < 2 ^ 53) (hl : -1074 ≤ l) (hl2 : l ≤ 971)
    (hp : (m : ℚ) * (2 : ℚ) ^ k * 100 = (n : ℚ) * (2 : ℚ) ^ l) :
    memAvailPercent memInfo = .finite ((n : ℚ) * (2 : ℚ) ^ l) := by
  have hT0q : (memInfo.memTotal : ℚ) ≠ 0 := by
    have : (0 : ℚ) < (memInfo.memTotal : ℚ) := by exact_mod_cast hT0
    exact ne_of_gt this
  unfold memAvailPercent Float64.ofUint64
  rw [roundFloat64_natCast _ hA, roundFloat64_natCast _ hT]
  simp only [Float64.div, if_neg hT0q]
  rw [hq, roundFloat64_exact m k hm hk hk2]
  simp only [Float64.mul]
  rw [hp, roundFloat64_exact n l hn hl hl2]

/-- The sample with one sixteenth available has 6.25 percent available. -/
theorem memAvailPercent_sampleMemInfo : memAvailPercent sampleMemInfo = .finite (25 / 4) := by
  have h := memAvailPercent_exact sampleMemInfo 1 25 (-4) (-2) (by decide) (by decide)
    (by decide) (by norm_num) (by norm_num) (by norm_num)
    (by simp only [sampleMemInfo]; norm_num) (by norm_num) (by norm_num) (by norm_num)
    (by norm_num)
  rw [h]
  norm_num

/-- The sample with twice the total available has 200 percent available. -/
theorem memAvailPercent_overMemInfo : memAvailPercent overMemInfo = .finite 200 := by
  have h := memAvailPercent_exact overMemInfo 2 200 0 0 (by decide) (by decide)
    (by decide) (by norm_num) (by norm_num) (by norm_num)
    (by simp only [overMemInfo]; norm_num) (by norm_num) (by norm_num) (by norm_num)
    (by norm_num)
  rw [h]
  norm_num

/-- The two flags of the sample with 6.25 percent available under thresholds of 5
percent to terminate and 10 percent to kill. -/
theorem sampleMemInfo_flags :
    needTerm killFirstConfig sampleMemInfo = false ∧
      needKill killFirstConfig sampleMemInfo = true := by
  unfold needTerm needKill
  rw [memAvailPercent_sampleMemInfo]
  simp only [killFirstConfig, sampleConfig, sampleMemInfo, Float64.le]
  norm_num

/-- C14: for a non-empty eligible process set, a tick without pressure (neither
`needTerm` nor `needKill`) chooses no victim and sends nothing, and a tick with
`needTerm` or `needKill` chooses the victim of `selectVictim` and the signal SIGKILL
when `needKill` holds and SIGTERM otherwise, sent once unless `dryRun` is set.
`needKill` is the comparison of the available memory with `memKillPercent` by `<=`,
or that of the free swap with `swapKillPercent` when swap is looked at, and
`needTerm` has no part in it: a sample with `needKill` and without `needTerm` acts,
with SIGKILL. -/
theorem mainTick_acts_on_either_flag (env : Env) (hsort : SortSliceSpec env.sortSlice)
    (cfg : Config) (memInfo : MemInfo) (processes : List Process)
    (hne : filterProcesses env processes cfg.protectProcesses ≠ []) :
    (needKill cfg memInfo = ((memAvailPercent memInfo).le cfg.memKillPercent ||
      (!cfg.ignoreSwap && decide (memInfo.swapTotal > 0) &&
        (swapFreePercent memInfo).le cfg.swapKillPercent))) ∧
    ((needTerm cfg memInfo = false ∧ needKill cfg memInfo = false) →
      mainTick env cfg memInfo (.ok processes) =
        .ok { victim := none, signal := none, kills := [] }) ∧
    ((needTerm cfg memInfo = true ∨ needKill cfg memInfo = true) →
      ∃ v, selectVictim env (filterProcesses env processes cfg.protectProcesses)
          cfg.sortByRSS = .ok v ∧
        mainTick env cfg memInfo (.ok processes) =
          .ok { victim := some v
                signal := some (if needKill cfg memInfo then .SIGKILL else .SIGTERM)
                kills := if cfg.dryRun then []
                  else [(v.pid, if needKill cfg memInfo then .SIGKILL else .SIGTERM)] }) ∧
    ((needTerm cfg memInfo = false ∧ needKill cfg memInfo = true) →
      ∃ v, mainTick env cfg memInfo (.ok processes) =
          .ok { victim := some v, signal := some .SIGKILL,
                kills := if cfg.dryRun then [] else [(v.pid, .SIGKILL)] }) := by
  obtain ⟨v, hv, _, _, _⟩ := selectVictim_spec env hsort _ cfg.sortByRSS hne
  have hlen : ¬ (filterProcesses env processes cfg.protectProcesses).length = 0 := by
    rw [List.length_eq_zero]
    exact hne
  have hact : (needTerm cfg memInfo = true ∨ needKill cfg memInfo = true) →
      mainTick env cfg memInfo (.ok processes) =
          .ok { victim := some v
                signal := some (if needKill cfg memInfo then .SIGKILL else .SIGTERM)
                kills := if cfg.dryRun then []
                  else [(v.pid, if needKill cfg memInfo then .SIGKILL else .SIGTERM)] } := by
    intro h
    have hor : (needTerm cfg memInfo || needKill cfg memInfo) = true := by
      rw [Bool.or_eq_true]
      exact h
    unfold mainTick tick
    rw [if_pos hor]
    simp only [if_neg hlen, hv, Outcome.bind]
    cases cfg.dryRun <;> simp
  refine ⟨rfl, ?_, fun h => ⟨v, hv, hact h⟩, ?_⟩
  · rintro ⟨h1, h2⟩
    unfold mainTick tick
    rw [h1, h2]
    simp
  · rintro ⟨_, h2⟩
    refine ⟨v, ?_⟩
    rw [hact (Or.inr h2), h2]
    simp

/-- Witness of C14: with 6.25 percent available, a terminate threshold of 5 and a
kill threshold of 10, the tick sends SIGKILL to the process B. -/
theorem mainTick_acts_on_either_flag_witness :
    filterProcesses asciiEnv sampleProcesses killFirstConfig.protectProcesses ≠ [] ∧
    needTerm killFirstConfig sampleMemInfo = false ∧
    needKill killFirstConfig sampleMemInfo = true ∧
    ∃ v, selectVictim asciiEnv
        (filterProcesses asciiEnv sampleProcesses killFirstConfig.protectProcesses)
          killFirstConfig.sortByRSS = .ok v ∧
      mainTick asciiEnv killFirstConfig sampleMemInfo (.ok sampleProcesses) =
        .ok { victim := some v
              signal := some (if needKill killFirstConfig sampleMemInfo then .SIGKILL
                else .SIGTERM)
              kills := if killFirstConfig.dryRun then []
                else [(v.pid, if needKill killFirstConfig sampleMemInfo then .SIGKILL
                  else .SIGTERM)] } :=
  ⟨by decide, sampleMemInfo_flags.1, sampleMemInfo_flags.2,
    (mainTick_acts_on_either_flag asciiEnv asciiEnv_sortSlice_spec killFirstConfig
      sampleMemInfo sampleProcesses (by decide)).2.2.1 (Or.inr sampleMemInfo_flags.2)⟩

/-- C15, the claim fails: the sample with `memTotal` 100 and `memAvailable` 200,
both unsigned 64-bit values, has 200 percent available, which is above 100. -/
theorem memAvailPercent_above_100_counterexample :
    0 < overMemInfo.memTotal ∧ overMemInfo.memTotal < 2 ^ 64 ∧
    overMemInfo.memAvailable < 2 ^ 64 ∧ overMemInfo.swapTotal < 2 ^ 64 ∧
    overMemInfo.swapFree < 2 ^ 64 ∧
    memAvailPercent overMemInfo = .finite 200 ∧
    ¬ (∀ memInfo : MemInfo, 0 < memInfo.memTotal → memInfo.memTotal < 2 ^ 64 →
        memInfo.memAvailable < 2 ^ 64 → memInfo.swapTotal < 2 ^ 64 →
        memInfo.swapFree < 2 ^ 64 →
        ∃ p : ℚ, memAvailPercent memInfo = .finite p ∧ 0 ≤ p ∧ p ≤ 100) := by
  refine ⟨by decide, by decide, by decide, by decide, by decide,
    memAvailPercent_overMemInfo, fun h => ?_⟩
  obtain ⟨p, hp, _, h100⟩ := h overMemInfo (by decide) (by decide) (by decide) (by decide)
    (by decide)
  rw [memAvailPercent_overMemInfo] at hp
  simp only [Float64.finite.injEq] at hp
  rw [← hp] at h100
  norm_num at h100

/-- Witness of C15 as amended, on the sample with one sixteenth available. -/
theorem memAvailPercent_in_range_witness :
    0 < sampleMemInfo.memTotal ∧ sampleMemInfo.memTotal < 2 ^ 64 ∧
    sampleMemInfo.memAvailable < 2 ^ 64 ∧
    ∃ p : ℚ, memAvailPercent sampleMemInfo = .finite p ∧ 0 ≤ p ∧
      |p - (sampleMemInfo.memAvailable : ℚ) / (sampleMemInfo.memTotal : ℚ) * 100| ≤
        (sampleMemInfo.memAvailable : ℚ) / (sampleMemInfo.memTotal : ℚ) * 100 * (1 / 2 ^ 50) ∧
      (sampleMemInfo.memAvailable ≤ sampleMemInfo.memTotal → p ≤ 100) :=
  ⟨by decide, by decide, by decide,
    memAvailPercent_in_range sampleMemInfo (by decide) (by decide) (by decide)⟩

end Useroom
